import Mathlib

/-!
# Verification of the panda_factor incremental data synchronization engine

This file gives a shallow embedding, in Lean 4, of the core algorithms of the
`panda_data` / `panda_data_hub` ingestion subsystem, and proves (or refutes)
the behavioural claims made by the specification.

Modelling conventions:

* Calendar dates (`YYYYMMDD` strings / Python `datetime` values in the source)
  are modelled by their proleptic-Gregorian day ordinals (`Nat`, with
  `0001-01-01` having ordinal 1, exactly as Python's `date.toordinal`).
  Python's `timedelta(days = n)` arithmetic is ordinal arithmetic, and
  comparison of fixed-width `YYYYMMDD` strings coincides with ordinal
  comparison on valid dates.
* Python loops are modelled by structurally recursive functions with an
  explicit fuel argument; the fuel supplied by wrappers is always sufficient
  for the real executions.
* Fallible calls into external collaborators (the Tushare provider, MongoDB)
  are modelled by oracle functions returning `Except`; a `.error` result
  models the call raising an exception.
* Progress reports (`_update_progress` dictionaries) are recorded as the
  optional `progress_percent` field of each emitted dictionary; `none` marks
  an emission whose dictionary carries no `progress_percent` key (dictionary
  merge semantics leave the previous percent in place).  Percent values are
  modelled in `ℚ`; the Python float computations involved are exact or
  order-preserving for every bound proved here.
-/

namespace PandaFactor

/-! ## Proleptic Gregorian calendar

Mirrors Python `datetime.date` day arithmetic as used by the services.
`toOrdinal` agrees with Python's `date.toordinal`.  These functions are used
opaquely by the sync model (no correctness lemmas about the calendar are
needed by any claim; they are evaluated on concrete dates in witnesses).
-/

/-- Gregorian leap-year test. -/
def isLeap (y : Nat) : Bool :=
  y % 4 == 0 && (y % 100 != 0 || y % 400 == 0)

/-- Number of days in month `m` of year `y` (months are 1-based). -/
def daysInMonth (y m : Nat) : Nat :=
  if m = 1 then 31
  else if m = 2 then (if isLeap y then 29 else 28)
  else if m = 3 then 31
  else if m = 4 then 30
  else if m = 5 then 31
  else if m = 6 then 30
  else if m = 7 then 31
  else if m = 8 then 31
  else if m = 9 then 30
  else if m = 10 then 31
  else if m = 11 then 30
  else 31

/-- Days in year `y` strictly before month `m`. -/
def daysBeforeMonth (y m : Nat) : Nat :=
  (List.range (m - 1)).foldl (fun acc i => acc + daysInMonth y (i + 1)) 0

/-- Day ordinal of December 31 of year `y - 1` (i.e. days before year `y`). -/
def daysBeforeYear (y : Nat) : Nat :=
  (365 * (y - 1) + (y - 1) / 4 + (y - 1) / 400) - (y - 1) / 100

/-- Day ordinal of the civil date `(y, m, d)`; `toOrdinal 1 1 1 = 1`,
matching Python's `date.toordinal`. -/
def toOrdinal (y m d : Nat) : Nat :=
  daysBeforeYear y + daysBeforeMonth y m + d

/-- Adjustment loop for the year-of-ordinal computation. -/
def yearAdjust (n : Nat) : Nat → Nat → Nat
  | 0, y => y
  | f + 1, y => if daysBeforeYear (y + 1) < n then yearAdjust n f (y + 1) else y

/-- Year containing day ordinal `n` (for `n ≥ 1`). -/
def yearOf (n : Nat) : Nat :=
  yearAdjust n 4 ((n - 1) * 400 / 146097 + 1)

/-- Locate the month and day-of-month for a 1-based day-of-year `doy`. -/
def monthScan (y : Nat) : Nat → Nat → Nat → Nat × Nat
  | 0, m, doy => (m, doy)
  | f + 1, m, doy =>
      if doy ≤ daysInMonth y m then (m, doy)
      else monthScan y f (m + 1) (doy - daysInMonth y m)

/-- Civil date `(y, m, d)` of day ordinal `n` (for `n ≥ 1`). -/
def fromOrdinal (n : Nat) : Nat × Nat × Nat :=
  let y := yearOf n
  let doy := n - daysBeforeYear y
  let md := monthScan y 12 1 doy
  (y, md.1, md.2)

/-- Day ordinal of the last day of the month containing ordinal `n`.
Mirrors `TSNamechangeCleanService._get_month_end`. -/
def monthEndOrd (n : Nat) : Nat :=
  let c := fromOrdinal n
  toOrdinal c.1 c.2.1 (daysInMonth c.1 c.2.1)

/-- Ordinal of the first day of the month containing ordinal `n + 32`.
Mirrors `datetime.strptime(x) + timedelta(days=32)` followed by
`.replace(day=1)`, the "move to next month" step of the incremental loop. -/
def nextMonthStart32 (n : Nat) : Nat :=
  let c := fromOrdinal (n + 32)
  toOrdinal c.1 c.2.1 1

/-! ## Chunked parallel range reader: `MarketDataReader._chunk_date_range`

The source parses `YYYYMMDD` strings to `datetime`, special-cases
`start == end`, and otherwise repeatedly emits
`(chunk_start, min(chunk_start + (chunk_months*30 - 1) days, end))`,
breaking once the chunk end reaches `end`, and continuing from
`chunk_end + 1 day`.  Dates are day ordinals here; the fuel
`endD + 1 - startD` strictly exceeds the number of loop iterations. -/

/-- The `while chunk_start <= end` loop of `_chunk_date_range`. -/
def chunkLoop (endD width : Nat) : Nat → Nat → List (Nat × Nat)
  | 0, _ => []
  | fuel + 1, chunkStart =>
      if chunkStart ≤ endD then
        let chunkEnd := min (chunkStart + width) endD
        if endD ≤ chunkEnd then [(chunkStart, chunkEnd)]
        else (chunkStart, chunkEnd) :: chunkLoop endD width fuel (chunkEnd + 1)
      else []

/-- `MarketDataReader._chunk_date_range` (dates as day ordinals, default
`chunk_months = 3`, so the chunk width in days is `3 * 30 - 1 = 89`). -/
def chunk_date_range (startD endD : Nat) (chunkMonths : Nat := 3) : List (Nat × Nat) :=
  if startD = endD then [(startD, endD)]
  else chunkLoop endD (chunkMonths * 30 - 1) (endD + 1 - startD) startD

/-! ## Chunked parallel range reader: per-chunk store query and merge

`MarketDataReader._get_chunk_data` builds a MongoDB filter from the query
parameters and the chunk's date bounds, reads the matching rows, and returns
`None` for an empty result.  `get_market_data` merges the chunk results that
are neither `None` nor empty, in the arbitrary order in which the worker
threads complete, and returns `None` when nothing was found. -/

/-- A row of the `stock_market` (or `future_market`) collection, with the
fields that the reader's filters inspect. -/
structure MRow where
  symbol : String
  date : Nat
  name : String
  index_component : String
  underlying_symbol : String
  deriving DecidableEq, Repr

/-- Query parameters assembled by `get_market_data` (after symbol/field
normalisation): symbol filter (empty list means no filter, as an empty
Python list is falsy), index indicator, ST inclusion flag, and the market
type (`"stock"` or `"future"`). -/
structure MQuery where
  symbols : List String
  indicator : String
  st : Bool
  mtype : String
  deriving DecidableEq, Repr

/-- Whether `"ST"` occurs in the instrument name (the `$regex: "ST"` filter). -/
def containsST (name : String) : Bool :=
  decide (List.IsInfix "ST".toList name.toList)

/-- The MongoDB filter document built by `_get_chunk_data`, as a predicate on
rows: symbol-set membership (skipped for an empty symbol list), exact date
match when the chunk is a single day and an inclusive range otherwise, the
index-membership encoding for the three non-default indicators, exclusion of
ST-named rows when `st` is false, and the `symbol = underlying_symbol + "88"`
main-contract restriction for futures. -/
def rowMatch (qp : MQuery) (chunkStart chunkEnd : Nat) (r : MRow) : Bool :=
  (qp.symbols.isEmpty || qp.symbols.contains r.symbol) &&
  (if chunkStart = chunkEnd then r.date == chunkStart
   else decide (chunkStart ≤ r.date) && decide (r.date ≤ chunkEnd)) &&
  (if qp.indicator = "000985" then true
   else if qp.indicator = "000300" then r.index_component == "100"
   else if qp.indicator = "000905" then r.index_component == "010"
   else if qp.indicator = "000852" then r.index_component == "001"
   else true) &&
  (qp.st || !containsST r.name) &&
  (if qp.mtype = "future" then r.symbol == r.underlying_symbol ++ "88" else true)

/-- `MarketDataReader._get_chunk_data`: query the store for one chunk and
return `none` for an empty result (`chunk_df.empty`). -/
def get_chunk_data (store : List MRow) (qp : MQuery) (chunk : Nat × Nat) :
    Option (List MRow) :=
  let rows := store.filter (rowMatch qp chunk.1 chunk.2)
  if rows.isEmpty then none else some rows

/-- The merge step of `get_market_data`: keep the chunk results that are
neither `None` nor empty, in completion order, and return `None` when no
chunk yielded data, else their concatenation. -/
def mergeChunks (results : List (Option (List MRow))) : Option (List MRow) :=
  let dfs := (results.filterMap id).filter (fun l => !l.isEmpty)
  if dfs.isEmpty then none else some dfs.flatten

/-- The chunk outputs of a `get_market_data` call in chunk order (the worker
pool may deliver them to the merge in any permutation of this list). -/
def marketChunkResults (store : List MRow) (qp : MQuery) (startD endD : Nat) :
    List (Option (List MRow)) :=
  (chunk_date_range startD endD).map (get_chunk_data store qp)

/-- The concatenation of all non-empty chunk outputs in chunk order (the
reference value the merge result is compared against, up to permutation). -/
def marketMergedCanonical (store : List MRow) (qp : MQuery) (startD endD : Nat) :
    List MRow :=
  (((marketChunkResults store qp startD endD).filterMap id).filter
    (fun l => !l.isEmpty)).flatten

/-! ## Idempotent upsert writer: `TSDividendCleaner._process_and_store_dividend_data`

The writer builds one `UpdateOne({symbol, ex_div_date}, {$set: record},
upsert=True)` per normalized record and issues them as a single
`bulk_write`.  The store is modelled as an association list from the
composite key to the stored document; MongoDB counts a document as
`modified` only when the `$set` actually changes it. -/

/-- A normalized dividend record (the `desired_columns` of
`_process_and_store_dividend_data`).  Numeric fields are rationals; the
remaining fields are the provider's date/status strings. -/
structure DivDoc where
  symbol : String
  announcement_date : String
  dividend_year : String
  process_status : String
  share_ratio : ℚ
  share_trans_ratio : ℚ
  total_share_ratio : ℚ
  cash_div_before_tax : ℚ
  cash_div_after_tax : ℚ
  unit_cash_div_tax : ℚ
  record_date : String
  ex_div_date : String
  cash_pay_date : String
  deriving DecidableEq, Repr

/-- The composite natural key `{symbol, ex_div_date}` of a dividend record. -/
def divKey (r : DivDoc) : String × String :=
  (r.symbol, r.ex_div_date)

/-- The dividend store: documents of the `stock_dividends` collection indexed
by the composite key. -/
abbrev DivStore := List ((String × String) × DivDoc)

/-- First document stored under a key. -/
def lookupKey (store : DivStore) (k : String × String) : Option DivDoc :=
  match store with
  | [] => none
  | (k0, d0) :: rest => if k0 = k then some d0 else lookupKey rest k

/-- Replace the first document stored under a key. -/
def replaceKey (store : DivStore) (k : String × String) (d : DivDoc) : DivStore :=
  match store with
  | [] => []
  | (k0, d0) :: rest =>
      if k0 = k then (k0, d) :: rest else (k0, d0) :: replaceKey rest k d

/-- Result counts of a MongoDB `bulk_write`. -/
structure BulkResult where
  store : DivStore
  matched : Nat
  modified : Nat
  upserted : Nat
  deriving DecidableEq, Repr

/-- Apply one `UpdateOne(filter = key, {$set: doc}, upsert=True)`:
a matching document counts as `matched`, counts as `modified` only if the
`$set` changes it, and a missing key inserts the document (`upserted`). -/
def applyUpdateOne (acc : BulkResult) (op : (String × String) × DivDoc) : BulkResult :=
  match lookupKey acc.store op.1 with
  | some old =>
      { store := replaceKey acc.store op.1 op.2
        matched := acc.matched + 1
        modified := acc.modified + (if old = op.2 then 0 else 1)
        upserted := acc.upserted }
  | none =>
      { store := acc.store ++ [(op.1, op.2)]
        matched := acc.matched
        modified := acc.modified
        upserted := acc.upserted + 1 }

/-- `bulk_write`: apply the operations in order against the store. -/
def bulk_write (store : DivStore) (ops : List ((String × String) × DivDoc)) :
    BulkResult :=
  ops.foldl applyUpdateOne ⟨store, 0, 0, 0⟩

/-- The upsert of `_process_and_store_dividend_data`: one find-or-replace
operation per record, keyed by `{symbol, ex_div_date}`, issued as one bulk
write. -/
def upsertDividends (store : DivStore) (recs : List DivDoc) : BulkResult :=
  bulk_write store (recs.map (fun r => (divKey r, r)))

/-! ## Provider pagination: the dividend fetch loops

Both `clean_dividend_data` (per announcement date) and
`clean_dividend_by_symbol` run `for offset in range(0, 99)`, request
`limit = 2000` records starting at `offset * limit`, stop when a page comes
back `None` or shorter than `limit`, and break (treating it as end-of-data)
when a page fetch raises.  Exhausting all 99 pages simply ends the loop.
A page oracle returns `.error` for a raising call, `.ok none` for a `None`
frame and `.ok (some rows)` otherwise. -/

/-- A raw provider dividend record (the fields requested from the
`dividend` endpoint). -/
structure DivRaw where
  ts_code : String
  ann_date : String
  ex_date : String
  deriving DecidableEq, Repr

/-- Result of one pagination sweep: the non-empty pages collected (`dfs`)
and the `offset` argument of every provider call issued, in order. -/
structure PagResult where
  dfs : List (List DivRaw)
  calls : List Nat
  deriving DecidableEq, Repr

/-- The `for offset in range(0, 99)` pagination loop.  `fuel` is the number
of remaining offsets (99 at the top call); `page` is the current offset
index. -/
def pagLoop (fetch : Nat → Except Unit (Option (List DivRaw))) (limit : Nat) :
    Nat → Nat → PagResult
  | 0, _ => ⟨[], []⟩
  | fuel + 1, page =>
      match fetch (page * limit) with
      | .error _ => ⟨[], [page * limit]⟩
      | .ok none => ⟨[], [page * limit]⟩
      | .ok (some df) =>
          if df.length < limit then
            ⟨if df.isEmpty then [] else [df], [page * limit]⟩
          else
            let rest := pagLoop fetch limit fuel (page + 1)
            ⟨(if df.isEmpty then [] else [df]) ++ rest.dfs,
              page * limit :: rest.calls⟩

/-- The end-of-data condition of the pagination loop at page index `page`:
the fetch raised (caught and treated as end-of-data), returned `None`, or
returned fewer than 2000 records. -/
def pageEndsSweep (fetch : Nat → Except Unit (Option (List DivRaw)))
    (page : Nat) : Prop :=
  match fetch (page * 2000) with
  | .error _ => True
  | .ok none => True
  | .ok (some df) => df.length < 2000

/-- The pagination of one dividend sub-query (one announcement date in
`clean_dividend_data`, or one symbol in `clean_dividend_by_symbol`):
at most 99 pages of 2000 records. -/
def paginateDividend (fetch : Nat → Except Unit (Option (List DivRaw))) : PagResult :=
  pagLoop fetch 2000 99 0

/-- Modelled from the spec: the specification's pagination contract, under
which reaching the 99-page ceiling is a fatal "unexpectedly large result"
error instead of a silent stop.  Used only to state what the claim demands
of the source loop. -/
def paginateDividendSpec (fetch : Nat → Except Unit (Option (List DivRaw))) :
    Except String PagResult :=
  let r := paginateDividend fetch
  if r.calls.length = 99 then .error "unexpectedly large result" else .ok r

/-! ## Rate-limited provider gateway: `tushare_client.py`

The module declares a global lock `_tushare_lock` "to serialize all API
calls", but `call_tushare_api` is `return api_func(*args, **kwargs)` — it
never acquires the lock.  The module also promises a single process-wide
provider session, yet `TSNamechangeCleanService.sync_namechange_data`
(and the adj-factor/valuation services) call `ts.pro_api()` directly,
bypassing `init_tushare_client` / `get_tushare_client`. -/

/-- Events observable on the gateway's lock and provider session. -/
inductive GatewayEvent
  | acquired
  | released
  | apiInvoked
  deriving DecidableEq, Repr

/-- The event trace of one `call_tushare_api(api_func, ...)` invocation,
translated from its body `return api_func(*args, **kwargs)`: the network
call happens with no lock operation around it. -/
def call_tushare_api_events : List GatewayEvent :=
  [GatewayEvent.apiInvoked]

/-- Whether every `apiInvoked` event in a trace happens while the lock is
held (depth of unreleased `acquired` events is positive). -/
def lockHeldDuringCalls (evs : List GatewayEvent) : Bool :=
  (evs.foldl
    (fun st ev =>
      match ev with
      | GatewayEvent.acquired => (st.1 + 1, st.2)
      | GatewayEvent.released => (st.1 - 1, st.2)
      | GatewayEvent.apiInvoked => (st.1, st.2 && decide (0 < st.1)))
    ((0 : Nat), true)).2

/-- The module-level state of `tushare_client.py`: the cached client, the
initialization flag, and the number of `ts.pro_api()` sessions created so
far in the process. -/
structure TSClientState where
  client : Option Nat
  isInitialized : Bool
  sessionsCreated : Nat
  deriving DecidableEq, Repr

/-- `ts.pro_api()`: creates a fresh provider session. -/
def ts_pro_api (s : TSClientState) : TSClientState × Nat :=
  ({ s with sessionsCreated := s.sessionsCreated + 1 }, s.sessionsCreated)

/-- `init_tushare_client(config)`: reuse the cached client when initialized,
fail without a token, otherwise create and cache one session. -/
def init_tushare_client (tokenConfigured : Bool) (s : TSClientState) :
    Except String (TSClientState × Nat) :=
  match s.isInitialized, s.client with
  | true, some c => .ok (s, c)
  | _, _ =>
      if tokenConfigured then
        let created := ts_pro_api s
        .ok ({ created.1 with client := some created.2, isInitialized := true },
          created.2)
      else .error "TS_TOKEN missing"

/-- Line 59 of `ts_namechange_clean_service.py`: the namechange service
obtains its provider handle with a direct `ts.pro_api()` call, not through
the shared gateway. -/
def namechange_service_init (s : TSClientState) : TSClientState × Nat :=
  ts_pro_api s

/-- Sessions present after a process initializes the shared client (as
`TSDividendCleaner.__init__` does) and then constructs the namechange
service's provider handle. -/
def twoComponentSessions : Nat :=
  match init_tushare_client true ⟨none, false, 0⟩ with
  | .ok (s, _) => (namechange_service_init s).1.sessionsCreated
  | .error _ => 0

/-! ## Deduplicating normalizer: the namechange dedup

All three dedup sites of `TSNamechangeCleanService._fetch_namechange_data`
run `sort_values(by='end_date', ascending=True)` followed by
`drop_duplicates(['ts_code', 'start_date'], keep='first')`.  The sort is by
the `end_date` string (lexicographic equals chronological for `YYYYMMDD`),
with null `end_date` placed last (pandas `na_position='last'`); the sort
kind only affects the relative order of records with equal `end_date`, which
no property proved here depends on. -/

/-- A raw provider namechange record, with the fields stored by the
service. -/
structure NCRec where
  ts_code : String
  name : String
  start_date : String
  end_date : Option String
  ann_date : String
  change_reason : String
  deriving DecidableEq, Repr

/-- The composite dedup key `(ts_code, start_date)`. -/
def ncKey (r : NCRec) : String × String :=
  (r.ts_code, r.start_date)

/-- Comparison of `end_date` values with nulls last (pandas
`na_position='last'`). -/
def endDateLE (a b : Option String) : Bool :=
  match a, b with
  | _, none => true
  | none, some _ => false
  | some x, some y => decide (x ≤ y)

/-- Sort order on records: ascending `end_date`. -/
def ncLE (a b : NCRec) : Prop :=
  endDateLE a.end_date b.end_date = true

instance : DecidableRel ncLE := fun a b => by
  unfold ncLE; infer_instance

instance : IsTotal NCRec ncLE := by
  constructor
  intro a b
  unfold ncLE endDateLE
  cases a.end_date with
  | none => cases b.end_date with
    | none => simp
    | some y => simp
  | some x => cases b.end_date with
    | none => simp
    | some y => simpa using le_total x y

instance : IsTrans NCRec ncLE := by
  constructor
  intro a b c hab hbc
  unfold ncLE endDateLE at hab hbc ⊢
  rcases ha : a.end_date with _ | x <;> rcases hb : b.end_date with _ | y <;>
      rcases hc : c.end_date with _ | z <;> simp_all
  exact le_trans hab hbc

/-- `drop_duplicates(key, keep='first')`: keep the first record of each key,
scanning left to right; `seen` holds the keys already kept. -/
def dropDupAux : List NCRec → List (String × String) → List NCRec
  | [], _ => []
  | a :: as, seen =>
      if ncKey a ∈ seen then dropDupAux as seen
      else a :: dropDupAux as (ncKey a :: seen)

/-- The namechange dedup: sort ascending by `end_date`, then keep the first
record of each `(ts_code, start_date)` key. -/
def dedupNC (l : List NCRec) : List NCRec :=
  dropDupAux (List.insertionSort ncLE l) []

/-! ## Checkpoint tracker: `_get_last_sync_date` and `_update_sync_record`

`_get_last_sync_date` reads the `sync_records` document for the category.
The read is an oracle: `.error` models any exception inside the `try`
(connection failure, malformed stored date, …), `.ok none` a missing
document, `.ok (some none)` a document without the `last_sync_date` field,
and `.ok (some (some d))` a stored date with ordinal `d`. -/

/-- `TSNamechangeCleanService._get_last_sync_date`: day before the stored
date when one exists, else (and on any read failure) 90 days before now. -/
def get_last_sync_date (readResult : Except Unit (Option (Option Nat)))
    (today : Nat) : Nat :=
  match readResult with
  | .ok (some (some d)) => d - 1
  | .ok (some none) => today - 90
  | .ok none => today - 90
  | .error _ => today - 90

/-! ## Sync orchestrator: `sync_namechange_data`

The model captures the externally observable behaviour of one run: the
sequence of `progress_percent` values handed to the progress callback
(`none` for emissions whose dictionary has no `progress_percent` key), the
persisted `last_sync_date` after the run, whether an exception escaped, and
which symbols the full-mode path fetched from the provider.

Environment oracles model the collaborators.  Full-mode per-stock fetch
results and batch inserts influence only log lines and the free-text
`current_task` strings, so they do not appear in the observable result; the
`count_documents` oracle (`countDocsO`) decides the skip logic. -/

/-- Oracles for one `sync_namechange_data` run. -/
structure SyncEnv where
  today : Nat
  initOk : Bool
  tokenValid : Bool
  syncRead : Except Unit (Option (Option Nat))
  incFetch : Nat → Except Unit (List NCRec)
  fullSetup : Except Unit (List String)
  countDocsO : String → Except Unit Nat
  ensureSaveOk : Bool
  existsO : Nat → Bool
  saveInsert : Nat → Except Unit Unit
  writeCheckpointOk : Bool

/-- Observable outcome of one run. -/
structure SyncResult where
  trace : List (Option ℚ)
  checkpoint : Option Nat
  raised : Bool
  apiCalls : List String
  deriving DecidableEq, Repr

/-- The percent emitted for one incremental sub-window:
`20 + (days_processed / total_days) * 50`, with
`days_processed = (current_end - start_date).days + 1` and
`total_days = (end_date - start_date).days + 1` (Python integer day
differences, which may be negative, hence the `ℤ` casts). -/
def incProgress (startD endD currentEnd : Nat) : ℚ :=
  20 + ((((currentEnd : ℤ) - (startD : ℤ) + 1 : ℤ) : ℚ) /
    (((endD : ℤ) - (startD : ℤ) + 1 : ℤ) : ℚ)) * 50

/-- The percent emitted after full-mode batch `b` of a stock list of length
`n`: `20 + (min(10*b + 10, n) / n) * 70`. -/
def fullBatchProgress (n b : Nat) : ℚ :=
  20 + (((min (10 * b + 10) n : Nat) : ℚ) / (n : ℚ)) * 70

/-- The percent emitted at save-loop row `i` of `len` rows:
`65 + (i / len) * 25`. -/
def saveProgress (len i : Nat) : ℚ :=
  65 + ((i : ℚ) / (len : ℚ)) * 25

/-- The incremental `while current_start <= end_date` monthly loop of
`_fetch_namechange_data`: each successful sub-window fetch appends its
(deduplicated) records and emits `20 + (days_processed/total_days)*50`; a
raising fetch silently advances to the next month.  Returns the emitted
percents and the concatenation of the monthly blocks (`all_data`). -/
def incLoop (env : SyncEnv) (startD endD : Nat) :
    Nat → Nat → List (Option ℚ) × List NCRec
  | 0, _ => ([], [])
  | fuel + 1, current =>
      if current ≤ endD then
        let currentEnd := min (monthEndOrd current) endD
        match env.incFetch current with
        | .error _ => incLoop env startD endD fuel (nextMonthStart32 current)
        | .ok recs =>
            let block := if recs.isEmpty then [] else dedupNC recs
            let q : ℚ := incProgress startD endD currentEnd
            if currentEnd = endD then ([some q], block)
            else
              let rest := incLoop env startD endD fuel (nextMonthStart32 currentEnd)
              (some q :: rest.1, block ++ rest.2)
      else ([], [])

/-- The skip test of the full-mode loop: a stock's history is fetched from
the provider exactly when its `count_documents({'symbol': ts_code})` call
succeeds and reports zero existing records (`existing_count > 0` skips, and
a raising count is caught and also skips). -/
def countIsZero (env : SyncEnv) (s : String) : Bool :=
  match env.countDocsO s with
  | .ok 0 => true
  | _ => false

/-- The full-mode `for i in range(0, len(stock_list), batch_size)` loop:
per batch, the stocks whose existing-record count is `0` are fetched from
the provider (a raising `count_documents` or `namechange` call is caught and
skips the stock), then one progress percent
`20 + (min(i+10, len)/len) * 70` is emitted. -/
def fullLoop (env : SyncEnv) (all : List String) :
    Nat → Nat → List (Option ℚ) × List String
  | 0, _ => ([], [])
  | fuel + 1, b =>
      if 10 * b < all.length then
        let batch := (all.drop (10 * b)).take 10
        let calls := batch.filter (countIsZero env)
        let q : ℚ := fullBatchProgress all.length b
        let rest := fullLoop env all fuel (b + 1)
        (some q :: rest.1, calls ++ rest.2)
      else ([], [])

/-- The row loop of `_save_namechange_data` (incremental branch): per row
`i`, a new document enters the buffer unless `find_one` sees a duplicate;
a full buffer (1000) is flushed with `insert_many` (a raising flush is
caught, keeps the buffer, and skips that row's progress emission); rows with
`i % 100 == 0` emit `65 + (i/len)*25`.  Returns the emissions, the final
buffer size, and the number of `insert_many` calls made. -/
def saveLoop (env : SyncEnv) (len : Nat) :
    Nat → Nat → Nat → Nat → List (Option ℚ) × Nat × Nat
  | 0, _, buf, k => ([], buf, k)
  | r + 1, i, buf, k =>
      let buf1 := if env.existsO i then buf else buf + 1
      if 1000 ≤ buf1 then
        match env.saveInsert k with
        | .error _ => saveLoop env len r (i + 1) buf1 (k + 1)
        | .ok _ =>
            let e := if i % 100 = 0 then [some (saveProgress len i)] else []
            let rest := saveLoop env len r (i + 1) 0 (k + 1)
            (e ++ rest.1, rest.2)
      else
        let e := if i % 100 = 0 then [some (saveProgress len i)] else []
        let rest := saveLoop env len r (i + 1) buf1 k
        (e ++ rest.1, rest.2)

/-- `_save_namechange_data` in incremental mode: a raising
`ensure_collection_and_indexes_namechange` hits the outer `except`, which
emits an error dictionary (no `progress_percent` key) and re-raises;
otherwise the 65% marker is emitted, the row loop runs, and a leftover
buffer is flushed (a raising final flush hits the outer `except`). -/
def saveIncremental (env : SyncEnv) (len : Nat) : List (Option ℚ) × Bool :=
  if env.ensureSaveOk then
    let t0 : List (Option ℚ) := [some 65]
    let r := saveLoop env len len 0 0 0
    if 0 < r.2.1 then
      match env.saveInsert r.2.2 with
      | .error _ => (t0 ++ r.1 ++ [none], true)
      | .ok _ => (t0 ++ r.1, false)
    else (t0 ++ r.1, false)
  else ([none], true)

/-- `"19900101"`, the fixed full-mode start date. -/
def epoch19900101 : Nat := toOrdinal 1990 1 1

/-- One run of `TSNamechangeCleanService.sync_namechange_data`.
`stored` is the persisted `last_sync_date` before the run; `startArg` /
`endArg` are the optional explicit bounds; `fuel` bounds the monthly loop
(the calendar guarantees termination in the source; any fuel at least the
number of months in the window reproduces the real run). -/
def sync_namechange_data (env : SyncEnv) (stored : Option Nat)
    (startArg endArg : Option Nat) (forceUpdate : Bool) (fuel : Nat) :
    SyncResult :=
  let t0 : List (Option ℚ) := [some 0]
  if !env.initOk then ⟨t0 ++ [none], stored, true, []⟩
  else
    let t1 := t0 ++ [some 10]
    if !env.tokenValid then ⟨t1 ++ [none], stored, true, []⟩
    else
      let t2 := t1 ++ [some 15]
      let endD := endArg.getD env.today
      let startD := startArg.getD
        (if forceUpdate then epoch19900101
         else get_last_sync_date env.syncRead env.today)
      let t3 := t2 ++ [some 20]
      if forceUpdate then
        match env.fullSetup with
        | .error _ => ⟨t3, stored, true, []⟩
        | .ok stockList =>
            let r := fullLoop env stockList (stockList.length + 1) 0
            ⟨t3 ++ [none] ++ r.1 ++ [some 100], stored, false, r.2⟩
      else
        let r := incLoop env startD endD fuel startD
        let combined := if r.2.isEmpty then [] else dedupNC r.2
        if combined.isEmpty then ⟨t3 ++ r.1 ++ [some 100], stored, false, []⟩
        else
          let t4 := t3 ++ r.1 ++ [some 60]
          let sv := saveIncremental env combined.length
          if sv.2 then ⟨t4 ++ sv.1, stored, true, []⟩
          else
            let t5 := t4 ++ sv.1 ++ [some 90]
            let ckpt := if env.writeCheckpointOk then some endD else stored
            ⟨t5 ++ [some 100], ckpt, false, []⟩

/-! ## Concrete instances used by witnesses and counterexamples -/

/-- A sample namechange record. -/
def sampleNC : NCRec :=
  ⟨"000001.SZ", "PAYH", "19910403", some "19920101", "19910402", "IPO"⟩

/-- A fully successful oracle environment: one non-empty incremental window,
a two-stock full-mode universe where the first stock already has stored
records, and no store failures.  `today` is 2024-02-15. -/
def demoEnv : SyncEnv :=
  { today := toOrdinal 2024 2 15
    initOk := true
    tokenValid := true
    syncRead := .ok none
    incFetch := fun _ => .ok [sampleNC]
    fullSetup := .ok ["000001.SZ", "000002.SZ"]
    countDocsO := fun s => if s = "000001.SZ" then .ok 3 else .ok 0
    ensureSaveOk := true
    existsO := fun _ => false
    saveInsert := fun _ => .ok ()
    writeCheckpointOk := true }

/-- A full provider page: exactly 2000 records. -/
def fullPage : List DivRaw :=
  ⟨"600000.SH", "20240101", "20240115"⟩ ::
    List.replicate 1999 ⟨"600000.SH", "20240101", "20240115"⟩

/-- `demoEnv` with the current date set to 2024-01-31 (ordinal 738916),
used for a run without an explicit end date. -/
def demoEnv2 : SyncEnv := { demoEnv with today := 738916 }

/-- `demoEnv` with an invalid provider token: every run raises at token
validation. -/
def demoEnvBadToken : SyncEnv := { demoEnv with tokenValid := false }

/-- A provider page oracle on which every page is full: 2000 records at
every offset. -/
def constFullFetch : Nat → Except Unit (Option (List DivRaw)) :=
  fun _ => .ok (some fullPage)

/-- A sample normalized dividend record. -/
def sampleDiv : DivDoc :=
  { symbol := "600000.SH"
    announcement_date := "20240101"
    dividend_year := "2023"
    process_status := "实施"
    share_ratio := 0
    share_trans_ratio := 0
    total_share_ratio := 0
    cash_div_before_tax := 3/10
    cash_div_after_tax := 27/100
    unit_cash_div_tax := 3/10
    record_date := "20240112"
    ex_div_date := "20240115"
    cash_pay_date := "20240116" }

/-- A second sample dividend record with a different composite key. -/
def sampleDiv2 : DivDoc :=
  { sampleDiv with symbol := "000001.SZ", ex_div_date := "20240220" }

/-- A small market store: two rows inside a 95-day window. -/
def demoStore : List MRow :=
  [⟨"600000.SH", 10, "PFYH", "100", "600000"⟩,
   ⟨"000001.SZ", 92, "PAYH", "010", "000001"⟩]

/-- A query over the full universe with defaults. -/
def demoQP : MQuery :=
  { symbols := [], indicator := "000985", st := true, mtype := "stock" }

/-- One-step unfolding of `chunkLoop` at positive fuel. -/
theorem chunkLoop_succ (endD width fuel chunkStart : Nat) :
    chunkLoop endD width (fuel + 1) chunkStart =
      if chunkStart ≤ endD then
        if endD ≤ min (chunkStart + width) endD then
          [(chunkStart, min (chunkStart + width) endD)]
        else
          (chunkStart, min (chunkStart + width) endD) ::
            chunkLoop endD width fuel (min (chunkStart + width) endD + 1)
      else [] := rfl

/-- Structural invariants of the chunking loop: given enough fuel and a start
not past the end, the produced chunks begin at the given start, end exactly at
`endD`, are adjacent (each start is one day after the previous end), and each
spans at most `width + 1` days. -/
theorem chunkLoop_spec (endD width : Nat) :
    ∀ fuel chunkStart, chunkStart ≤ endD → endD + 1 - chunkStart ≤ fuel →
      (chunkLoop endD width fuel chunkStart).head?.map Prod.fst = some chunkStart ∧
      (chunkLoop endD width fuel chunkStart).getLast?.map Prod.snd = some endD ∧
      List.Chain' (fun a b : Nat × Nat => b.1 = a.2 + 1)
        (chunkLoop endD width fuel chunkStart) ∧
      ∀ c ∈ chunkLoop endD width fuel chunkStart,
        chunkStart ≤ c.1 ∧ c.1 ≤ c.2 ∧ c.2 ≤ c.1 + width := by
  intro fuel
  induction fuel with
  | zero => intro chunkStart h hf; omega
  | succ fuel ih =>
    intro chunkStart h hf
    rw [chunkLoop_succ, if_pos h]
    by_cases hend : endD ≤ min (chunkStart + width) endD
    · have hmin : min (chunkStart + width) endD = endD := by omega
      rw [if_pos hend, hmin]
      refine ⟨rfl, rfl, List.chain'_singleton _, ?_⟩
      intro c hc
      simp only [List.mem_singleton] at hc
      subst hc
      simp only
      omega
    · have hmin : min (chunkStart + width) endD = chunkStart + width := by omega
      rw [if_neg hend, hmin]
      have hnext : chunkStart + width + 1 ≤ endD := by omega
      have hfuel : endD + 1 - (chunkStart + width + 1) ≤ fuel := by omega
      obtain ⟨ihhead, ihlast, ihchain, ihmem⟩ := ih (chunkStart + width + 1) hnext hfuel
      obtain ⟨x, xs, hxeq⟩ :
          ∃ x xs, chunkLoop endD width fuel (chunkStart + width + 1) = x :: xs := by
        rcases hc : chunkLoop endD width fuel (chunkStart + width + 1) with _ | ⟨x, xs⟩
        · rw [hc] at ihhead; simp at ihhead
        · exact ⟨x, xs, rfl⟩
      rw [hxeq] at ihhead ihlast ihchain ihmem ⊢
      have hx1 : x.1 = chunkStart + width + 1 := by simpa using ihhead
      refine ⟨rfl, ?_, ?_, ?_⟩
      · rw [List.getLast?_cons_cons]
        exact ihlast
      · refine List.chain'_cons'.mpr ⟨?_, ihchain⟩
        intro b hb
        simp only [List.head?_cons, Option.mem_def, Option.some.injEq] at hb
        subst hb
        simpa using hx1
      · intro c hc
        rcases List.mem_cons.mp hc with hc | hc
        · subst hc; simp only; omega
        · have := ihmem c hc
          omega

/-- Two-chunk computation of the loop on a 95-day window. -/
theorem chunkLoop_95 (s : Nat) :
    chunkLoop (s + 94) 89 95 s = [(s, s + 89), (s + 90, s + 94)] := by
  have h95 : (95 : Nat) = 94 + 1 := rfl
  have h94 : (94 : Nat) = 93 + 1 := rfl
  rw [h95, chunkLoop_succ, if_pos (by omega : s ≤ s + 94),
    if_neg (by omega : ¬ s + 94 ≤ min (s + 89) (s + 94)),
    (by omega : min (s + 89) (s + 94) = s + 89), h94, chunkLoop_succ,
    if_pos (by omega : s + 89 + 1 ≤ s + 94),
    if_pos (by omega : s + 94 ≤ min (s + 89 + 1 + 89) (s + 94)),
    (by omega : min (s + 89 + 1 + 89) (s + 94) = s + 94)]

/-- C3: for every pair of dates `startDate ≤ endDate`, `_chunk_date_range`
returns a single chunk `[startDate, endDate]` when the dates are equal, and
otherwise consecutive, non-overlapping chunks exactly covering the interval:
the first chunk starts at `startDate`, the last ends at `endDate`, each
chunk's start is one day after the previous chunk's end, each chunk spans at
most 90 days, and a 95-day window (`endDate = startDate + 94`) splits into
exactly the two chunks `[s, s+89]` and `[s+90, s+94]`. -/
theorem C3_chunk_date_range (s e : Nat) (h : s ≤ e) :
    (s = e → chunk_date_range s e = [(s, e)]) ∧
    (chunk_date_range s e).head?.map Prod.fst = some s ∧
    (chunk_date_range s e).getLast?.map Prod.snd = some e ∧
    List.Chain' (fun a b : Nat × Nat => b.1 = a.2 + 1) (chunk_date_range s e) ∧
    (∀ c ∈ chunk_date_range s e, c.1 ≤ c.2 ∧ c.2 + 1 ≤ c.1 + 90) ∧
    (e = s + 94 → chunk_date_range s e = [(s, s + 89), (s + 90, s + 94)]) := by
  by_cases hse : s = e
  · subst hse
    have hc : chunk_date_range s s = [(s, s)] := by
      unfold chunk_date_range
      rw [if_pos rfl]
    refine ⟨fun _ => hc, ?_, ?_, ?_, ?_, ?_⟩
    · rw [hc]; rfl
    · rw [hc]; rfl
    · rw [hc]; exact List.chain'_singleton _
    · intro c hcm
      rw [hc] at hcm
      simp only [List.mem_singleton] at hcm
      subst hcm
      omega
    · intro h94; omega
  · have hwidth : (3 : Nat) * 30 - 1 = 89 := by norm_num
    have hc : chunk_date_range s e = chunkLoop e 89 (e + 1 - s) s := by
      unfold chunk_date_range
      rw [if_neg hse, hwidth]
    obtain ⟨hhead, hlast, hchain, hmem⟩ :=
      chunkLoop_spec e 89 (e + 1 - s) s h (le_refl _)
    refine ⟨fun heq => absurd heq hse, ?_, ?_, ?_, ?_, ?_⟩
    · rw [hc]; exact hhead
    · rw [hc]; exact hlast
    · rw [hc]; exact hchain
    · intro c hcm
      rw [hc] at hcm
      have := hmem c hcm
      omega
    · intro h94
      subst h94
      have hfuel : s + 94 + 1 - s = 95 := by omega
      rw [hc, hfuel, chunkLoop_95]

/-- Witness for C3 at the concrete 95-day window `[0, 94]`. -/
theorem C3_chunk_date_range_witness :
    (0 : Nat) ≤ 94 ∧
    (((0 : Nat) = 94 → chunk_date_range 0 94 = [(0, 94)]) ∧
     (chunk_date_range 0 94).head?.map Prod.fst = some 0 ∧
     (chunk_date_range 0 94).getLast?.map Prod.snd = some 94 ∧
     List.Chain' (fun a b : Nat × Nat => b.1 = a.2 + 1) (chunk_date_range 0 94) ∧
     (∀ c ∈ chunk_date_range 0 94, c.1 ≤ c.2 ∧ c.2 + 1 ≤ c.1 + 90) ∧
     ((94 : Nat) = 0 + 94 → chunk_date_range 0 94 = [(0, 0 + 89), (0 + 90, 0 + 94)])) :=
  ⟨by decide, C3_chunk_date_range 0 94 (by decide)⟩

/-- Looking up the key just replaced finds the new document (when the key
was present). -/
theorem lookupKey_replaceKey_self (store : DivStore) (k : String × String)
    (d : DivDoc) (h : lookupKey store k ≠ none) :
    lookupKey (replaceKey store k d) k = some d := by
  induction store with
  | nil => simp [lookupKey] at h
  | cons e rest ih =>
    obtain ⟨k0, d0⟩ := e
    by_cases hk : k0 = k
    · simp [replaceKey, lookupKey, hk]
    · simp only [lookupKey, replaceKey, if_neg hk] at h ⊢
      exact ih h

/-- Replacing at one key does not change lookups at another key. -/
theorem lookupKey_replaceKey_ne (store : DivStore) (k k' : String × String)
    (d : DivDoc) (h : k' ≠ k) :
    lookupKey (replaceKey store k d) k' = lookupKey store k' := by
  induction store with
  | nil => rfl
  | cons e rest ih =>
    obtain ⟨k0, d0⟩ := e
    by_cases hk : k0 = k
    · subst hk
      have hne : k0 ≠ k' := fun hc => h hc.symm
      simp [replaceKey, lookupKey, hne]
    · by_cases hk' : k0 = k'
      · subst hk'
        simp [replaceKey, if_neg h, lookupKey]
      · simp only [replaceKey, if_neg hk, lookupKey, if_neg hk']
        exact ih

/-- Replacing a key with the very document already stored is the identity. -/
theorem replaceKey_self (store : DivStore) (k : String × String) (d : DivDoc)
    (h : lookupKey store k = some d) : replaceKey store k d = store := by
  induction store with
  | nil => rfl
  | cons e rest ih =>
    obtain ⟨k0, d0⟩ := e
    by_cases hk : k0 = k
    · simp only [lookupKey, if_pos hk] at h
      obtain rfl : d0 = d := by injection h
      simp [replaceKey, hk]
    · simp only [lookupKey, if_neg hk] at h
      simp [replaceKey, if_neg hk, ih h]

/-- Lookup through an append: the left store wins. -/
theorem lookupKey_append (store l : DivStore) (k : String × String) :
    lookupKey (store ++ l) k =
      match lookupKey store k with
      | some d => some d
      | none => lookupKey l k := by
  induction store with
  | nil => simp [lookupKey]
  | cons e rest ih =>
    obtain ⟨k0, d0⟩ := e
    by_cases hk : k0 = k
    · simp [lookupKey, hk]
    · simpa [lookupKey, hk] using ih

/-- One upsert operation makes its own key map to its document. -/
theorem applyUpdateOne_lookup_self (acc : BulkResult)
    (op : (String × String) × DivDoc) :
    lookupKey (applyUpdateOne acc op).store op.1 = some op.2 := by
  unfold applyUpdateOne
  cases hl : lookupKey acc.store op.1 with
  | some old =>
      simpa using lookupKey_replaceKey_self acc.store op.1 op.2 (by rw [hl]; simp)
  | none =>
      simp only
      rw [lookupKey_append, hl]
      simp [lookupKey]

/-- One upsert operation does not change lookups at other keys. -/
theorem applyUpdateOne_lookup_ne (acc : BulkResult)
    (op : (String × String) × DivDoc) (k : String × String) (h : k ≠ op.1) :
    lookupKey (applyUpdateOne acc op).store k = lookupKey acc.store k := by
  unfold applyUpdateOne
  cases hl : lookupKey acc.store op.1 with
  | some old => simpa using lookupKey_replaceKey_ne acc.store op.1 k op.2 h
  | none =>
      simp only
      rw [lookupKey_append]
      cases hk : lookupKey acc.store k with
      | some d => simp
      | none =>
          have hne : op.1 ≠ k := fun hc => h hc.symm
          simp [lookupKey, hk, hne]

/-- A bulk write leaves untouched keys' lookups unchanged. -/
theorem bulk_foldl_lookup_preserve :
    ∀ (ops : List ((String × String) × DivDoc)) (acc : BulkResult)
      (k : String × String), k ∉ ops.map Prod.fst →
      lookupKey ((ops.foldl applyUpdateOne acc).store) k = lookupKey acc.store k := by
  intro ops
  induction ops with
  | nil => intro acc k _; rfl
  | cons o rest ih =>
    intro acc k hk
    simp only [List.map_cons, List.mem_cons, not_or] at hk
    rw [List.foldl_cons, ih (applyUpdateOne acc o) k hk.2,
      applyUpdateOne_lookup_ne acc o k hk.1]

/-- After a bulk write whose operations carry pairwise distinct keys, every
operation's key maps to that operation's document. -/
theorem bulk_foldl_lookup :
    ∀ (ops : List ((String × String) × DivDoc)) (acc : BulkResult),
      (ops.map Prod.fst).Nodup →
      ∀ op ∈ ops, lookupKey ((ops.foldl applyUpdateOne acc).store) op.1 = some op.2 := by
  intro ops
  induction ops with
  | nil => intro acc _ op hop; simp at hop
  | cons o rest ih =>
    intro acc hnd op hop
    simp only [List.map_cons, List.nodup_cons] at hnd
    rcases List.mem_cons.mp hop with heq | hop
    · subst heq
      rw [List.foldl_cons,
        bulk_foldl_lookup_preserve rest (applyUpdateOne acc op) op.1 hnd.1]
      exact applyUpdateOne_lookup_self acc op
    · exact ih (applyUpdateOne acc o) hnd.2 op hop

/-- A bulk write whose every operation finds its exact document already in
place only counts matches: the store and the modified/upserted counts are
untouched. -/
theorem bulk_foldl_noop :
    ∀ (ops : List ((String × String) × DivDoc)) (acc : BulkResult),
      (∀ op ∈ ops, lookupKey acc.store op.1 = some op.2) →
      ops.foldl applyUpdateOne acc =
        ⟨acc.store, acc.matched + ops.length, acc.modified, acc.upserted⟩ := by
  intro ops
  induction ops with
  | nil => intro acc _; cases acc; simp
  | cons o rest ih =>
    intro acc hall
    have ho := hall o (List.mem_cons_self o rest)
    have hstep : applyUpdateOne acc o =
        ⟨acc.store, acc.matched + 1, acc.modified, acc.upserted⟩ := by
      unfold applyUpdateOne
      rw [ho]
      simp [replaceKey_self acc.store o.1 o.2 ho]
    rw [List.foldl_cons, hstep,
      ih ⟨acc.store, acc.matched + 1, acc.modified, acc.upserted⟩
        (fun op hop => hall op (List.mem_cons_of_mem o hop))]
    simp only [List.length_cons]
    congr 1
    omega

/-- C1: running the dividend upsert (one find-or-replace per record keyed
by `{symbol, ex_div_date}`, issued as one bulk write) a second time with
identical input yields `modified = 0` and leaves the store's record count
unchanged, for every record set with pairwise distinct composite keys (the
normalized-record sets written to the unique-indexed store). -/
theorem C1_upsert_idempotent (store : DivStore) (recs : List DivDoc)
    (hkeys : (recs.map divKey).Nodup) :
    (upsertDividends (upsertDividends store recs).store recs).modified = 0 ∧
    (upsertDividends (upsertDividends store recs).store recs).store.length =
      (upsertDividends store recs).store.length := by
  have hopskeys : ((recs.map (fun r => (divKey r, r))).map Prod.fst).Nodup := by
    simpa [List.map_map, Function.comp] using hkeys
  have hlookup := bulk_foldl_lookup (recs.map (fun r => (divKey r, r)))
    ⟨store, 0, 0, 0⟩ hopskeys
  have hsecond := bulk_foldl_noop (recs.map (fun r => (divKey r, r)))
    ⟨(upsertDividends store recs).store, 0, 0, 0⟩
    (by
      intro op hop
      simpa [upsertDividends, bulk_write] using hlookup op hop)
  constructor
  · show (bulk_write _ _).modified = 0
    unfold bulk_write
    rw [hsecond]
  · show (bulk_write _ _).store.length = _
    unfold bulk_write
    rw [hsecond]

/-- Witness for C1: two records with distinct composite keys upserted twice
into an empty store. -/
theorem C1_upsert_idempotent_witness :
    (([sampleDiv, sampleDiv2].map divKey).Nodup) ∧
    ((upsertDividends (upsertDividends [] [sampleDiv, sampleDiv2]).store
        [sampleDiv, sampleDiv2]).modified = 0 ∧
     (upsertDividends (upsertDividends [] [sampleDiv, sampleDiv2]).store
        [sampleDiv, sampleDiv2]).store.length =
       (upsertDividends [] [sampleDiv, sampleDiv2]).store.length) :=
  ⟨by decide, C1_upsert_idempotent [] [sampleDiv, sampleDiv2] (by decide)⟩

/-- `ncLE` is reflexive (from totality). -/
theorem ncLE_refl (a : NCRec) : ncLE a a := by
  rcases @IsTotal.total NCRec ncLE _ a a with h | h <;> exact h

/-- Records kept by the dedup scan come from the input. -/
theorem dropDupAux_subset :
    ∀ (l : List NCRec) (seen : List (String × String)),
      ∀ r ∈ dropDupAux l seen, r ∈ l := by
  intro l
  induction l with
  | nil => intro seen r hr; simp [dropDupAux] at hr
  | cons a as ih =>
    intro seen r hr
    simp only [dropDupAux] at hr
    by_cases ha : ncKey a ∈ seen
    · rw [if_pos ha] at hr
      exact List.mem_cons_of_mem a (ih seen r hr)
    · rw [if_neg ha] at hr
      rcases List.mem_cons.mp hr with heq | hr
      · exact heq ▸ List.mem_cons_self a as
      · exact List.mem_cons_of_mem a (ih _ r hr)

/-- The dedup scan keeps pairwise distinct keys, none of them in `seen`. -/
theorem dropDupAux_keys :
    ∀ (l : List NCRec) (seen : List (String × String)),
      ((dropDupAux l seen).map ncKey).Nodup ∧
      ∀ r ∈ dropDupAux l seen, ncKey r ∉ seen := by
  intro l
  induction l with
  | nil => intro seen; simp [dropDupAux]
  | cons a as ih =>
    intro seen
    simp only [dropDupAux]
    by_cases ha : ncKey a ∈ seen
    · rw [if_pos ha]
      exact ih seen
    · rw [if_neg ha]
      obtain ⟨ihnodup, ihseen⟩ := ih (ncKey a :: seen)
      refine ⟨?_, ?_⟩
      · rw [List.map_cons, List.nodup_cons]
        refine ⟨?_, ihnodup⟩
        intro hmem
        obtain ⟨r, hr, hkr⟩ := List.mem_map.mp hmem
        exact ihseen r hr (hkr ▸ List.mem_cons_self _ _)
      · intro r hr
        rcases List.mem_cons.mp hr with heq | hr
        · exact heq ▸ ha
        · intro hs
          exact ihseen r hr (List.mem_cons_of_mem _ hs)

/-- On a sorted input, the dedup scan keeps, for each key not yet seen, a
record of that key that is `ncLE`-below every record of that key. -/
theorem dropDupAux_min :
    ∀ (l : List NCRec) (seen : List (String × String)), l.Sorted ncLE →
      ∀ r ∈ l, ncKey r ∉ seen →
        ∃ r', r' ∈ dropDupAux l seen ∧ ncKey r' = ncKey r ∧
          ∀ s ∈ l, ncKey s = ncKey r → ncLE r' s := by
  intro l
  induction l with
  | nil => intro seen _ r hr; simp at hr
  | cons a as ih =>
    intro seen hsort r hr hseen
    rw [List.sorted_cons] at hsort
    obtain ⟨hhead, htail⟩ := hsort
    simp only [dropDupAux]
    by_cases ha : ncKey a ∈ seen
    · rw [if_pos ha]
      have hra : r ≠ a := fun hc => hseen (hc ▸ ha)
      have hr' : r ∈ as := by
        rcases List.mem_cons.mp hr with heq | h
        · exact absurd heq hra
        · exact h
      obtain ⟨r', h1, h2, h3⟩ := ih seen htail r hr' hseen
      refine ⟨r', h1, h2, ?_⟩
      intro s hs hks
      rcases List.mem_cons.mp hs with heq | hs
      · exact absurd (heq ▸ hks : ncKey a = ncKey r) (fun hc => hseen (hc ▸ ha))
      · exact h3 s hs hks
    · rw [if_neg ha]
      by_cases hk : ncKey r = ncKey a
      · refine ⟨a, List.mem_cons_self _ _, hk.symm, ?_⟩
        intro s hs _
        rcases List.mem_cons.mp hs with heq | hs
        · exact heq ▸ ncLE_refl a
        · exact hhead s hs
      · have hr' : r ∈ as := by
          rcases List.mem_cons.mp hr with heq | h
          · exact absurd (heq ▸ rfl) hk
          · exact h
        have hseen' : ncKey r ∉ ncKey a :: seen := by
          intro hmem
          rcases List.mem_cons.mp hmem with heq | hmem
          · exact hk heq
          · exact hseen hmem
        obtain ⟨r', h1, h2, h3⟩ := ih (ncKey a :: seen) htail r hr' hseen'
        refine ⟨r', List.mem_cons_of_mem a h1, h2, ?_⟩
        intro s hs hks
        rcases List.mem_cons.mp hs with heq | hs
        · exact absurd (heq ▸ hks).symm hk
        · exact h3 s hs hks

/-- C7: the namechange dedup (`sort_values(by='end_date')` then
`drop_duplicates(['ts_code','start_date'], keep='first')`) keeps exactly one
record per composite key, takes every kept record from the input, and the
kept record of each key has an `end_date` no later than that of every input
record sharing the key (nulls ordered last, as pandas places NaN last).
`dedupNC` is a pure function of the input list, so repeated runs on the same
input in the same order select the same records. -/
theorem C7_dedup_namechange (l : List NCRec) :
    ((dedupNC l).map ncKey).Nodup ∧
    (∀ r ∈ dedupNC l, r ∈ l) ∧
    (∀ r ∈ l, ∃ r', r' ∈ dedupNC l ∧ ncKey r' = ncKey r ∧
      ∀ s ∈ l, ncKey s = ncKey r → endDateLE r'.end_date s.end_date = true) := by
  have hperm := List.perm_insertionSort ncLE l
  refine ⟨(dropDupAux_keys _ []).1, ?_, ?_⟩
  · intro r hr
    exact hperm.mem_iff.mp (dropDupAux_subset _ [] r hr)
  · intro r hr
    obtain ⟨r', h1, h2, h3⟩ := dropDupAux_min (List.insertionSort ncLE l) []
      (List.sorted_insertionSort ncLE l) r (hperm.mem_iff.mpr hr)
      (List.not_mem_nil _)
    refine ⟨r', h1, h2, ?_⟩
    intro s hs hks
    exact h3 s (hperm.mem_iff.mpr hs) hks

/-- Witness for C7: a concrete list with a duplicated key and differing
`end_date` values. -/
theorem C7_dedup_namechange_witness :
    (((dedupNC [sampleNC, { sampleNC with end_date := some "19910101" }]).map
        ncKey).Nodup) ∧
    (∀ r ∈ dedupNC [sampleNC, { sampleNC with end_date := some "19910101" }],
      r ∈ [sampleNC, { sampleNC with end_date := some "19910101" }]) ∧
    (∀ r ∈ [sampleNC, { sampleNC with end_date := some "19910101" }],
      ∃ r', r' ∈ dedupNC [sampleNC, { sampleNC with end_date := some "19910101" }] ∧
        ncKey r' = ncKey r ∧
        ∀ s ∈ [sampleNC, { sampleNC with end_date := some "19910101" }],
          ncKey s = ncKey r → endDateLE r'.end_date s.end_date = true) :=
  C7_dedup_namechange [sampleNC, { sampleNC with end_date := some "19910101" }]

/-- C8: for every query whose chunks all yield no data, the merge of
`get_market_data` returns `None` (and, being a total function of the chunk
results, raises nothing); when some chunk yields data, the merge returns the
concatenation of all non-empty chunk outputs, in whatever completion order
the worker pool delivered them — i.e. a permutation of the chunk-order
concatenation. -/
theorem C8_merge_no_data_or_concat (store : List MRow) (qp : MQuery)
    (startD endD : Nat) (arrival : List (Option (List MRow)))
    (hperm : arrival.Perm (marketChunkResults store qp startD endD)) :
    ((∀ o ∈ marketChunkResults store qp startD endD, o = none) →
      mergeChunks arrival = none) ∧
    ((∃ df, some df ∈ marketChunkResults store qp startD endD ∧ df ≠ []) →
      ∃ m, mergeChunks arrival = some m ∧
        m.Perm (marketMergedCanonical store qp startD endD)) := by
  have hdfs : ((arrival.filterMap id).filter (fun l => !l.isEmpty)).Perm
      (((marketChunkResults store qp startD endD).filterMap id).filter
        (fun l => !l.isEmpty)) :=
    (hperm.filterMap id).filter _
  constructor
  · intro hall
    have hfm : arrival.filterMap id = [] := by
      rw [List.filterMap_eq_nil_iff]
      intro o ho
      rw [hall o (hperm.mem_iff.mp ho)]
      rfl
    unfold mergeChunks
    rw [hfm]
    rfl
  · rintro ⟨df, hdf, hne⟩
    have hdfc : df ∈ ((marketChunkResults store qp startD endD).filterMap id).filter
        (fun l => !l.isEmpty) := by
      rw [List.mem_filter]
      refine ⟨List.mem_filterMap.mpr ⟨some df, hdf, rfl⟩, ?_⟩
      simpa using hne
    have hnonempty : ¬ ((arrival.filterMap id).filter (fun l => !l.isEmpty)).isEmpty = true := by
      intro hempty
      rw [List.isEmpty_iff] at hempty
      have := hdfs.symm.mem_iff.mp hdfc
      rw [hempty] at this
      simp at this
    refine ⟨((arrival.filterMap id).filter (fun l => !l.isEmpty)).flatten, ?_, hdfs.flatten⟩
    unfold mergeChunks
    rw [if_neg hnonempty]

/-- Witness for C8: a two-chunk 95-day query over a two-row store (both
chunks yield data, delivered in chunk order), and the same query over an
empty store (every chunk yields no data). -/
theorem C8_merge_no_data_or_concat_witness :
    (∃ m, mergeChunks (marketChunkResults demoStore demoQP 0 94) = some m ∧
      m.Perm (marketMergedCanonical demoStore demoQP 0 94)) ∧
    mergeChunks (marketChunkResults [] demoQP 0 94) = none :=
  ⟨(C8_merge_no_data_or_concat demoStore demoQP 0 94
      (marketChunkResults demoStore demoQP 0 94) (List.Perm.refl _)).2
      ⟨[⟨"600000.SH", 10, "PFYH", "100", "600000"⟩], by decide, by decide⟩,
   (C8_merge_no_data_or_concat [] demoQP 0 94
      (marketChunkResults [] demoQP 0 94) (List.Perm.refl _)).1 (by decide)⟩

/-- One-step unfolding of `pagLoop` at positive fuel. -/
theorem pagLoop_succ (fetch : Nat → Except Unit (Option (List DivRaw)))
    (limit fuel page : Nat) :
    pagLoop fetch limit (fuel + 1) page =
      match fetch (page * limit) with
      | .error _ => ⟨[], [page * limit]⟩
      | .ok none => ⟨[], [page * limit]⟩
      | .ok (some df) =>
          if df.length < limit then
            ⟨if df.isEmpty then [] else [df], [page * limit]⟩
          else
            ⟨(if df.isEmpty then [] else [df]) ++ (pagLoop fetch limit fuel (page + 1)).dfs,
              page * limit :: (pagLoop fetch limit fuel (page + 1)).calls⟩ := rfl

/-- Offsets `page * 2000` over consecutive page indices strictly increase. -/
theorem chain_lt_range_offsets :
    ∀ (n p : Nat), List.Chain' (fun a b : Nat => a < b)
      ((List.range' p n).map (fun k => k * 2000)) := by
  intro n
  induction n with
  | zero => intro p; simp
  | succ m ih =>
    intro p
    rw [List.range'_succ, List.map_cons]
    refine List.chain'_cons'.mpr ⟨?_, ih (p + 1)⟩
    intro b hb
    cases m with
    | zero => simp at hb
    | succ m' =>
        rw [List.range'_succ, List.map_cons] at hb
        simp only [List.head?_cons, Option.mem_def, Option.some.injEq] at hb
        subst hb
        omega

/-- Structure of one pagination sweep: some `1 ≤ n ≤ fuel` pages are
requested at offsets `page*2000, (page+1)*2000, …`; every non-final page was
full, and if the sweep stopped before exhausting the fuel, the final page
hit an end-of-data condition. -/
theorem pagLoop_spec (fetch : Nat → Except Unit (Option (List DivRaw))) :
    ∀ fuel page, 1 ≤ fuel →
      ∃ n, 1 ≤ n ∧ n ≤ fuel ∧
        (pagLoop fetch 2000 fuel page).calls =
          (List.range' page n).map (fun k => k * 2000) ∧
        (∀ k, page ≤ k → k + 1 < page + n → ¬ pageEndsSweep fetch k) ∧
        (n < fuel → pageEndsSweep fetch (page + n - 1)) := by
  intro fuel
  induction fuel with
  | zero => intro page h; omega
  | succ f ih =>
    intro page _
    cases hf : fetch (page * 2000) with
    | error e =>
        refine ⟨1, le_refl 1, by omega, ?_, ?_, ?_⟩
        · simp [pagLoop, hf, List.range'_succ]
        · intro k hk1 hk2; omega
        · intro _
          unfold pageEndsSweep
          rw [(by omega : page + 1 - 1 = page), hf]
          trivial
    | ok odf =>
      cases odf with
      | none =>
          refine ⟨1, le_refl 1, by omega, ?_, ?_, ?_⟩
          · simp [pagLoop, hf, List.range'_succ]
          · intro k hk1 hk2; omega
          · intro _
            unfold pageEndsSweep
            rw [(by omega : page + 1 - 1 = page), hf]
            trivial
      | some df =>
        by_cases hshort : df.length < 2000
        · refine ⟨1, le_refl 1, by omega, ?_, ?_, ?_⟩
          · simp [pagLoop, hf, if_pos hshort, List.range'_succ]
          · intro k hk1 hk2; omega
          · intro _
            unfold pageEndsSweep
            rw [(by omega : page + 1 - 1 = page), hf]
            exact hshort
        · cases f with
          | zero =>
              refine ⟨1, le_refl 1, le_refl 1, ?_, ?_, ?_⟩
              · simp [pagLoop, hf, if_neg hshort, List.range'_succ]
              · intro k hk1 hk2; omega
              · intro hlt; omega
          | succ f' =>
              obtain ⟨n, hn1, hn2, hcalls, hfull, hend⟩ :=
                ih (page + 1) (by omega)
              refine ⟨n + 1, by omega, by omega, ?_, ?_, ?_⟩
              · rw [List.range'_succ, List.map_cons, ← hcalls, pagLoop_succ, hf]
                dsimp only
                rw [if_neg hshort]
              · intro k hk1 hk2
                rcases Nat.eq_or_lt_of_le hk1 with heq | hlt
                · subst heq
                  unfold pageEndsSweep
                  rw [hf]
                  exact hshort
                · exact hfull k hlt (by omega)
              · intro hlt
                rw [(by omega : page + (n + 1) - 1 = page + 1 + n - 1)]
                exact hend (by omega)

/-- C6 (amended): every dividend pagination sweep calls the provider at the
strictly increasing offsets `0, 2000, 4000, …`; every page before the final
one was full, and a sweep that stops before the 99-page ceiling stops
exactly because its final page raised, was `None`, or was shorter than the
page size.  Reaching the ceiling silently ends the loop (see the
counterexample for the refuted "fatal error" part of the claim). -/
theorem C6_pagination_stops (fetch : Nat → Except Unit (Option (List DivRaw))) :
    ∃ n, 1 ≤ n ∧ n ≤ 99 ∧
      (paginateDividend fetch).calls = (List.range' 0 n).map (fun k => k * 2000) ∧
      List.Chain' (fun a b : Nat => a < b) (paginateDividend fetch).calls ∧
      (∀ k, k + 1 < n → ¬ pageEndsSweep fetch k) ∧
      (n < 99 → pageEndsSweep fetch (n - 1)) := by
  obtain ⟨n, hn1, hn2, hcalls, hfull, hend⟩ := pagLoop_spec fetch 99 0 (by omega)
  refine ⟨n, hn1, hn2, hcalls, ?_, ?_, ?_⟩
  · unfold paginateDividend
    rw [hcalls]
    exact chain_lt_range_offsets n 0
  · intro k hk
    exact hfull k (Nat.zero_le k) (by omega)
  · intro hlt
    have := hend hlt
    rwa [Nat.zero_add] at this

/-- Witness for C6 (amended) at a concrete one-page oracle: the provider
returns a single short page, so exactly one call is made at offset 0. -/
theorem C6_pagination_stops_witness :
    ∃ n, 1 ≤ n ∧ n ≤ 99 ∧
      (paginateDividend (fun _ => .ok (some [⟨"600000.SH", "20240101", "20240115"⟩]))).calls =
        (List.range' 0 n).map (fun k => k * 2000) ∧
      List.Chain' (fun a b : Nat => a < b)
        (paginateDividend (fun _ => .ok (some [⟨"600000.SH", "20240101", "20240115"⟩]))).calls ∧
      (∀ k, k + 1 < n →
        ¬ pageEndsSweep (fun _ => .ok (some [⟨"600000.SH", "20240101", "20240115"⟩])) k) ∧
      (n < 99 →
        pageEndsSweep (fun _ => .ok (some [⟨"600000.SH", "20240101", "20240115"⟩])) (n - 1)) :=
  C6_pagination_stops (fun _ => .ok (some [⟨"600000.SH", "20240101", "20240115"⟩]))

/-- C6 (counterexample): the claim says a sweep that reaches the 99-page
safety ceiling is treated as a fatal "unexpectedly large result" error.  On
an oracle where every page is full, the source loop instead terminates
silently after exactly 99 calls and returns the 99 collected pages as a
normal result; the specification's contract (`paginateDividendSpec`, which
does error at the ceiling) disagrees with the code on this input. -/
theorem C6_ceiling_counterexample :
    (paginateDividend constFullFetch).calls.length = 99 ∧
    (paginateDividend constFullFetch).dfs.length = 99 ∧
    paginateDividendSpec constFullFetch =
      Except.error "unexpectedly large result" := by
  have hlen : fullPage.length = 2000 := by
    unfold fullPage
    rw [List.length_cons, List.length_replicate]
  have hempty : fullPage.isEmpty = false := rfl
  have h : ∀ fuel page, pagLoop constFullFetch 2000 fuel page =
      ⟨List.replicate fuel fullPage,
       (List.range' page fuel).map (fun k => k * 2000)⟩ := by
    intro fuel
    induction fuel with
    | zero => intro page; rfl
    | succ f ih =>
      intro page
      rw [pagLoop_succ]
      have hfetch : constFullFetch (page * 2000) = .ok (some fullPage) := rfl
      rw [hfetch]
      dsimp only
      rw [if_neg (by omega : ¬ fullPage.length < 2000), hempty, ih (page + 1)]
      simp [List.replicate_succ, List.range'_succ]
  have h99 := h 99 0
  refine ⟨?_, ?_, ?_⟩
  · show (pagLoop constFullFetch 2000 99 0).calls.length = 99
    rw [h99]
    simp
  · show (pagLoop constFullFetch 2000 99 0).dfs.length = 99
    rw [h99]
    simp
  · unfold paginateDividendSpec paginateDividend
    rw [h99]
    rw [if_pos (by simp)]

/-- C2: the claim demands that every provider call go through the single
shared gateway with a mutual-exclusion lock held around the network call.
The source contradicts its own module documentation on both counts:
`call_tushare_api` is `return api_func(*args, **kwargs)` and never acquires
`_tushare_lock` (its event trace contains no lock event), and a process that
initializes the shared client and then runs the namechange service holds two
provider sessions, because `sync_namechange_data` calls `ts.pro_api()`
directly. -/
theorem C2_gateway_not_serialized :
    lockHeldDuringCalls call_tushare_api_events = false ∧
    twoComponentSessions = 2 := by decide

/-- C10: `_get_last_sync_date` returns the stored `last_sync_date` minus one
day when the `sync_records` document for the category exists and carries the
field, and 90 days before the current date when the document is missing, the
field is missing, or the read raises; being a total function of the read
outcome, it always returns a date and lets no exception escape. -/
theorem C10_get_last_sync_date (read : Except Unit (Option (Option Nat)))
    (today : Nat) :
    (∀ d, 1 ≤ d → read = .ok (some (some d)) →
      get_last_sync_date read today = d - 1) ∧
    (read = .ok none → get_last_sync_date read today = today - 90) ∧
    (read = .ok (some none) → get_last_sync_date read today = today - 90) ∧
    (∀ e, read = .error e → get_last_sync_date read today = today - 90) := by
  refine ⟨?_, ?_, ?_, ?_⟩
  · intro d _ hread
    subst hread
    rfl
  · intro hread
    subst hread
    rfl
  · intro hread
    subst hread
    rfl
  · intro e hread
    subst hread
    rfl

/-- Witness for C10 at concrete read outcomes (`today = 200`, stored date
ordinal 5). -/
theorem C10_get_last_sync_date_witness :
    get_last_sync_date (.ok (some (some 5))) 200 = 4 ∧
    get_last_sync_date (.ok none) 200 = 110 ∧
    get_last_sync_date (.ok (some none)) 200 = 110 ∧
    get_last_sync_date (.error ()) 200 = 110 :=
  ⟨(C10_get_last_sync_date (.ok (some (some 5))) 200).1 5 (by decide) rfl,
   (C10_get_last_sync_date (.ok none) 200).2.1 rfl,
   (C10_get_last_sync_date (.ok (some none)) 200).2.2.1 rfl,
   (C10_get_last_sync_date (.error ()) 200).2.2.2 () rfl⟩

/-- One-step unfolding of `fullLoop` at positive fuel. -/
theorem fullLoop_succ (env : SyncEnv) (all : List String) (fuel b : Nat) :
    fullLoop env all (fuel + 1) b =
      if 10 * b < all.length then
        (some (fullBatchProgress all.length b) :: (fullLoop env all fuel (b + 1)).1,
          ((all.drop (10 * b)).take 10).filter (countIsZero env) ++
            (fullLoop env all fuel (b + 1)).2)
      else ([], []) := rfl

/-- The symbols fetched by the batched full-mode loop are exactly the
zero-count symbols of the processed prefix of the stock list. -/
theorem fullLoop_calls (env : SyncEnv) (all : List String) :
    ∀ fuel b, (fullLoop env all fuel b).2 =
      ((all.drop (10 * b)).take (10 * fuel)).filter (countIsZero env) := by
  intro fuel
  induction fuel with
  | zero => intro b; simp [fullLoop]
  | succ f ih =>
    intro b
    rw [fullLoop_succ]
    by_cases hb : 10 * b < all.length
    · rw [if_pos hb]
      show ((all.drop (10 * b)).take 10).filter (countIsZero env) ++
          (fullLoop env all f (b + 1)).2 = _
      rw [ih (b + 1),
        (by ring : 10 * (f + 1) = 10 + 10 * f),
        List.take_add, List.filter_append, List.drop_drop,
        (by ring : 10 * (b + 1) = 10 * b + 10)]
    · rw [if_neg hb]
      have hd : all.drop (10 * b) = [] :=
        List.drop_eq_nil_of_le (by omega)
      rw [hd]
      simp

/-- `countIsZero` decodes the skip condition. -/
theorem countIsZero_iff (env : SyncEnv) (s : String) :
    countIsZero env s = true ↔ env.countDocsO s = .ok 0 := by
  unfold countIsZero
  cases h : env.countDocsO s with
  | error e => simp
  | ok n => cases n <;> simp

/-- The full-mode provider calls of a whole sync run: empty unless the run
gets past initialization/token validation and the stock-list fetch, in which
case exactly the zero-count stocks are fetched. -/
theorem sync_full_apiCalls (env : SyncEnv) (stored : Option Nat)
    (startArg endArg : Option Nat) (fuel : Nat) :
    (sync_namechange_data env stored startArg endArg true fuel).apiCalls =
      if env.initOk = true ∧ env.tokenValid = true then
        match env.fullSetup with
        | .error _ => []
        | .ok sl => sl.filter (countIsZero env)
      else [] := by
  unfold sync_namechange_data
  cases hinit : env.initOk with
  | false => simp
  | true =>
    cases htok : env.tokenValid with
    | false => simp
    | true =>
      cases hsetup : env.fullSetup with
      | error e => simp
      | ok sl =>
          simp only [Bool.not_true, Bool.false_eq_true, if_false, if_true,
            and_self]
          show (fullLoop env sl (sl.length + 1) 0).2 = sl.filter (countIsZero env)
          rw [fullLoop_calls, List.drop_zero,
            List.take_of_length_le (by omega : sl.length ≤ 10 * (sl.length + 1))]

/-- C9: in full-sync mode, every symbol whose existing-record count in the
target store is positive is skipped (its history is never requested from the
provider); every symbol that is fetched comes from the stock list and had a
zero existing-record count; and on a run that reaches the loop, every
zero-count stock-list symbol is fetched. -/
theorem C9_full_sync_skips_existing (env : SyncEnv) (stored : Option Nat)
    (startArg endArg : Option Nat) (fuel : Nat) :
    (∀ s n, env.countDocsO s = .ok n → 0 < n →
      s ∉ (sync_namechange_data env stored startArg endArg true fuel).apiCalls) ∧
    (∀ s, s ∈ (sync_namechange_data env stored startArg endArg true fuel).apiCalls →
      ∃ sl, env.fullSetup = .ok sl ∧ s ∈ sl ∧ env.countDocsO s = .ok 0) ∧
    (env.initOk = true → env.tokenValid = true → ∀ sl, env.fullSetup = .ok sl →
      ∀ s ∈ sl, env.countDocsO s = .ok 0 →
        s ∈ (sync_namechange_data env stored startArg endArg true fuel).apiCalls) := by
  rw [sync_full_apiCalls env stored startArg endArg fuel]
  refine ⟨?_, ?_, ?_⟩
  · intro s n hs hn hmem
    by_cases hcond : env.initOk = true ∧ env.tokenValid = true
    · rw [if_pos hcond] at hmem
      cases hsetup : env.fullSetup with
      | error e => rw [hsetup] at hmem; simp at hmem
      | ok sl =>
          rw [hsetup] at hmem
          have := (List.mem_filter.mp hmem).2
          rw [countIsZero_iff] at this
          rw [this] at hs
          injection hs with hs
          omega
    · rw [if_neg hcond] at hmem
      simp at hmem
  · intro s hmem
    by_cases hcond : env.initOk = true ∧ env.tokenValid = true
    · rw [if_pos hcond] at hmem
      cases hsetup : env.fullSetup with
      | error e => rw [hsetup] at hmem; simp at hmem
      | ok sl =>
          rw [hsetup] at hmem
          have h2 := List.mem_filter.mp hmem
          exact ⟨sl, rfl, h2.1, (countIsZero_iff env s).mp h2.2⟩
    · rw [if_neg hcond] at hmem
      simp at hmem
  · intro hinit htok sl hsetup s hs hzero
    rw [if_pos ⟨hinit, htok⟩, hsetup]
    exact List.mem_filter.mpr ⟨hs, (countIsZero_iff env s).mpr hzero⟩

/-- Witness for C9 on `demoEnv`: the stock with 3 existing records is never
fetched, the zero-count stock is. -/
theorem C9_full_sync_skips_existing_witness :
    "000001.SZ" ∉ (sync_namechange_data demoEnv none none none true 3).apiCalls ∧
    "000002.SZ" ∈ (sync_namechange_data demoEnv none none none true 3).apiCalls :=
  ⟨(C9_full_sync_skips_existing demoEnv none none none 3).1 "000001.SZ" 3
      rfl (by decide),
   (C9_full_sync_skips_existing demoEnv none none none 3).2.2 rfl rfl
      ["000001.SZ", "000002.SZ"] rfl "000002.SZ" (by decide) rfl⟩

/-- One-step unfolding of `incLoop` at positive fuel. -/
theorem incLoop_succ (env : SyncEnv) (startD endD fuel current : Nat) :
    incLoop env startD endD (fuel + 1) current =
      if current ≤ endD then
        match env.incFetch current with
        | .error _ => incLoop env startD endD fuel (nextMonthStart32 current)
        | .ok recs =>
            if min (monthEndOrd current) endD = endD then
              ([some (incProgress startD endD (min (monthEndOrd current) endD))],
               if recs.isEmpty then [] else dedupNC recs)
            else
              (some (incProgress startD endD (min (monthEndOrd current) endD)) ::
                 (incLoop env startD endD fuel
                   (nextMonthStart32 (min (monthEndOrd current) endD))).1,
               (if recs.isEmpty then [] else dedupNC recs) ++
                 (incLoop env startD endD fuel
                   (nextMonthStart32 (min (monthEndOrd current) endD))).2)
      else ([], []) := rfl

/-- One-step unfolding of `saveLoop` at positive remaining count. -/
theorem saveLoop_succ (env : SyncEnv) (len r i buf k : Nat) :
    saveLoop env len (r + 1) i buf k =
      if 1000 ≤ (if env.existsO i then buf else buf + 1) then
        match env.saveInsert k with
        | .error _ =>
            saveLoop env len r (i + 1) (if env.existsO i then buf else buf + 1) (k + 1)
        | .ok _ =>
            ((if i % 100 = 0 then [some (saveProgress len i)] else []) ++
              (saveLoop env len r (i + 1) 0 (k + 1)).1,
             (saveLoop env len r (i + 1) 0 (k + 1)).2)
      else
        ((if i % 100 = 0 then [some (saveProgress len i)] else []) ++
          (saveLoop env len r (i + 1) (if env.existsO i then buf else buf + 1) k).1,
         (saveLoop env len r (i + 1) (if env.existsO i then buf else buf + 1) k).2) := rfl

/-- The incremental sub-window percent never exceeds 70 on a non-empty
window: the processed days never exceed the total days. -/
theorem incProgress_le_70 (startD endD currentEnd : Nat)
    (h1 : startD ≤ endD) (h2 : currentEnd ≤ endD) :
    incProgress startD endD currentEnd ≤ 70 := by
  unfold incProgress
  have hTpos : (0 : ℤ) < (endD : ℤ) - (startD : ℤ) + 1 := by omega
  have hdT : (currentEnd : ℤ) - (startD : ℤ) + 1 ≤ (endD : ℤ) - (startD : ℤ) + 1 := by
    omega
  have hq : ((((currentEnd : ℤ) - (startD : ℤ) + 1 : ℤ)) : ℚ) /
      ((((endD : ℤ) - (startD : ℤ) + 1 : ℤ)) : ℚ) ≤ 1 := by
    rw [div_le_one (by exact_mod_cast hTpos)]
    exact_mod_cast hdT
  have hmul := mul_le_mul_of_nonneg_right hq (by norm_num : (0 : ℚ) ≤ 50)
  linarith

/-- The full-mode batch percent never exceeds 90 on a non-empty stock
list. -/
theorem fullBatchProgress_le_90 (n b : Nat) (h : 0 < n) :
    fullBatchProgress n b ≤ 90 := by
  unfold fullBatchProgress
  have hmin : min (10 * b + 10) n ≤ n := min_le_right _ _
  have hq : ((min (10 * b + 10) n : Nat) : ℚ) / (n : ℚ) ≤ 1 := by
    rw [div_le_one (by exact_mod_cast h)]
    exact_mod_cast hmin
  have hmul := mul_le_mul_of_nonneg_right hq (by norm_num : (0 : ℚ) ≤ 70)
  linarith

/-- The save-loop percent never exceeds 90 while rows remain. -/
theorem saveProgress_le_90 (len i : Nat) (h : i < len) :
    saveProgress len i ≤ 90 := by
  unfold saveProgress
  have hq : ((i : Nat) : ℚ) / (len : ℚ) ≤ 1 := by
    rw [div_le_one (by exact_mod_cast (by omega : 0 < len))]
    exact_mod_cast (by omega : i ≤ len)
  have hmul := mul_le_mul_of_nonneg_right hq (by norm_num : (0 : ℚ) ≤ 25)
  linarith

/-- Every percent emitted by the incremental fetch loop is at most 70. -/
theorem incLoop_trace_le (env : SyncEnv) (startD endD : Nat)
    (h : startD ≤ endD) :
    ∀ fuel current x, some x ∈ (incLoop env startD endD fuel current).1 →
      x ≤ 70 := by
  intro fuel
  induction fuel with
  | zero => intro current x hx; simp [incLoop] at hx
  | succ f ih =>
    intro current x hx
    rw [incLoop_succ] at hx
    by_cases hcur : current ≤ endD
    · rw [if_pos hcur] at hx
      cases hfetch : env.incFetch current with
      | error e =>
          rw [hfetch] at hx
          exact ih _ x hx
      | ok recs =>
          rw [hfetch] at hx
          dsimp only at hx
          by_cases hend : min (monthEndOrd current) endD = endD
          · rw [if_pos hend] at hx
            simp only [List.mem_singleton, Option.some.injEq] at hx
            subst hx
            exact incProgress_le_70 startD endD _ h (min_le_right _ _)
          · rw [if_neg hend] at hx
            rcases List.mem_cons.mp hx with heq | hx
            · obtain rfl : x = incProgress startD endD (min (monthEndOrd current) endD) := by
                injection heq
              exact incProgress_le_70 startD endD _ h (min_le_right _ _)
            · exact ih _ x hx
    · rw [if_neg hcur] at hx
      simp at hx

/-- An empty window yields an empty incremental loop result. -/
theorem incLoop_nil (env : SyncEnv) (startD endD : Nat)
    (h : ¬ startD ≤ endD) :
    ∀ fuel, incLoop env startD endD fuel startD = ([], []) := by
  intro fuel
  cases fuel with
  | zero => rfl
  | succ f => rw [incLoop_succ, if_neg h]

/-- Every percent emitted by the full-mode batch loop is at most 90. -/
theorem fullLoop_trace_le (env : SyncEnv) (all : List String) :
    ∀ fuel b x, some x ∈ (fullLoop env all fuel b).1 → x ≤ 90 := by
  intro fuel
  induction fuel with
  | zero => intro b x hx; simp [fullLoop] at hx
  | succ f ih =>
    intro b x hx
    rw [fullLoop_succ] at hx
    by_cases hb : 10 * b < all.length
    · rw [if_pos hb] at hx
      rcases List.mem_cons.mp hx with heq | hx
      · obtain rfl : x = fullBatchProgress all.length b := by injection heq
        exact fullBatchProgress_le_90 all.length b (by omega)
      · exact ih (b + 1) x hx
    · rw [if_neg hb] at hx
      simp at hx

/-- Every percent emitted by the save row loop is at most 90. -/
theorem saveLoop_trace_le (env : SyncEnv) (len : Nat) :
    ∀ r i buf k x, i + r ≤ len →
      some x ∈ (saveLoop env len r i buf k).1 → x ≤ 90 := by
  intro r
  induction r with
  | zero => intro i buf k x _ hx; simp [saveLoop] at hx
  | succ rr ih =>
    intro i buf k x hle hx
    rw [saveLoop_succ] at hx
    have hbound : i < len := by omega
    by_cases hbuf : 1000 ≤ (if env.existsO i then buf else buf + 1)
    · rw [if_pos hbuf] at hx
      cases hins : env.saveInsert k with
      | error e =>
          rw [hins] at hx
          exact ih (i + 1) _ _ x (by omega) hx
      | ok u =>
          rw [hins] at hx
          dsimp only at hx
          rcases List.mem_append.mp hx with hx | hx
          · by_cases hmod : i % 100 = 0
            · rw [if_pos hmod] at hx
              simp only [List.mem_singleton, Option.some.injEq] at hx
              subst hx
              exact saveProgress_le_90 len i hbound
            · rw [if_neg hmod] at hx
              simp at hx
          · exact ih (i + 1) 0 (k + 1) x (by omega) hx
    · rw [if_neg hbuf] at hx
      rcases List.mem_append.mp hx with hx | hx
      · by_cases hmod : i % 100 = 0
        · rw [if_pos hmod] at hx
          simp only [List.mem_singleton, Option.some.injEq] at hx
          subst hx
          exact saveProgress_le_90 len i hbound
        · rw [if_neg hmod] at hx
          simp at hx
      · exact ih (i + 1) _ k x (by omega) hx

/-- Every percent emitted by the incremental save phase is at most 90. -/
theorem saveIncremental_trace_le (env : SyncEnv) (len : Nat) :
    ∀ x, some x ∈ (saveIncremental env len).1 → x ≤ 90 := by
  intro x hx
  unfold saveIncremental at hx
  by_cases hok : env.ensureSaveOk = true
  · rw [if_pos hok] at hx
    dsimp only at hx
    have hloop : ∀ y : ℚ, some y ∈ (saveLoop env len len 0 0 0).1 → y ≤ 90 :=
      fun y hy => saveLoop_trace_le env len len 0 0 0 y (by omega) hy
    by_cases hbuf : 0 < (saveLoop env len len 0 0 0).2.1
    · rw [if_pos hbuf] at hx
      cases hins : env.saveInsert (saveLoop env len len 0 0 0).2.2 with
      | error e =>
          rw [hins] at hx
          dsimp only at hx
          rcases List.mem_append.mp hx with hx | hx
          · rcases List.mem_append.mp hx with hx | hx
            · simp only [List.mem_singleton, Option.some.injEq] at hx
              subst hx
              norm_num
            · exact hloop x hx
          · simp at hx
      | ok u =>
          rw [hins] at hx
          dsimp only at hx
          rcases List.mem_append.mp hx with hx | hx
          · simp only [List.mem_singleton, Option.some.injEq] at hx
            subst hx
            norm_num
          · exact hloop x hx
    · rw [if_neg hbuf] at hx
      rcases List.mem_append.mp hx with hx | hx
      · simp only [List.mem_singleton, Option.some.injEq] at hx
        subst hx
        norm_num
      · exact hloop x hx
  · rw [if_neg hok] at hx
    simp at hx

/-- C5 (amended): within any single sync run — full or incremental, under
any oracle behaviour — every `progress_percent` value handed to the progress
callback is at most 100.  (The claim's monotonicity half is false; see the
counterexample.) -/
theorem C5_progress_percent_le_100 (env : SyncEnv) (stored : Option Nat)
    (startArg endArg : Option Nat) (force : Bool) (fuel : Nat) :
    ∀ x : ℚ,
      some x ∈ (sync_namechange_data env stored startArg endArg force fuel).trace →
      x ≤ 100 := by
  intro x hx
  unfold sync_namechange_data at hx
  cases hinit : env.initOk with
  | false =>
    rw [hinit] at hx
    simp at hx
    subst hx
    norm_num
  | true =>
    rw [hinit] at hx
    rw [if_neg (by simp)] at hx
    cases htok : env.tokenValid with
    | false =>
      rw [htok] at hx
      simp at hx
      rcases hx with rfl | rfl <;> norm_num
    | true =>
      rw [htok] at hx
      rw [if_neg (by simp)] at hx
      dsimp only at hx
      cases force with
      | true =>
        rw [if_pos rfl] at hx
        cases hsetup : env.fullSetup with
        | error e =>
          rw [hsetup] at hx
          simp only [List.mem_append, List.mem_singleton, Option.some.injEq,
            List.not_mem_nil, or_false, false_or] at hx
          repeat' rcases hx with hx | hx
          all_goals first
            | simp at hx
            | norm_num
        | ok sl =>
          rw [hsetup] at hx
          try dsimp only at hx
          simp only [List.mem_append, List.mem_singleton, Option.some.injEq,
            List.not_mem_nil, or_false, false_or] at hx
          repeat' rcases hx with hx | hx
          all_goals first
            | (have hb9 := fullLoop_trace_le env sl (sl.length + 1) 0 x hx; linarith)
            | simp at hx
            | norm_num
      | false =>
        rw [if_neg (by simp)] at hx
        try simp only [Bool.false_eq_true, if_false] at hx
        try dsimp only at hx
        set sD := startArg.getD (get_last_sync_date env.syncRead env.today) with hsD
        set eD := endArg.getD env.today with heD
        set rr := incLoop env sD eD fuel sD with hrr
        have hloopbound : ∀ y : ℚ, some y ∈ rr.1 → y ≤ 70 := by
          intro y hy
          by_cases hrange : sD ≤ eD
          · exact incLoop_trace_le env sD eD hrange fuel sD y hy
          · rw [hrr, incLoop_nil env sD eD hrange fuel] at hy
            simp at hy
        set comb := if rr.2.isEmpty then [] else dedupNC rr.2 with hcomb
        by_cases hce : comb.isEmpty = true
        · rw [if_pos hce] at hx
          try dsimp only at hx
          simp only [List.mem_append, List.mem_singleton, Option.some.injEq,
            List.not_mem_nil, or_false, false_or] at hx
          repeat' rcases hx with hx | hx
          all_goals first
            | (have hb9 := hloopbound x hx; linarith)
            | simp at hx
            | norm_num
        · rw [if_neg hce] at hx
          try dsimp only at hx
          set sv := saveIncremental env comb.length with hsv
          have hsavebound : ∀ y : ℚ, some y ∈ sv.1 → y ≤ 90 := by
            intro y hy
            exact saveIncremental_trace_le env comb.length y (hsv ▸ hy)
          by_cases hraised : sv.2 = true
          · rw [if_pos hraised] at hx
            try dsimp only at hx
            simp only [List.mem_append, List.mem_singleton, Option.some.injEq,
              List.not_mem_nil, or_false, false_or] at hx
            repeat' rcases hx with hx | hx
            all_goals first
              | (have hb9 := hloopbound x hx; linarith)
              | (have hb9 := hsavebound x hx; linarith)
              | simp at hx
              | norm_num
          · rw [if_neg hraised] at hx
            try dsimp only at hx
            simp only [List.mem_append, List.mem_singleton, Option.some.injEq,
              List.not_mem_nil, or_false, false_or] at hx
            repeat' rcases hx with hx | hx
            all_goals first
              | (have hb9 := hloopbound x hx; linarith)
              | (have hb9 := hsavebound x hx; linarith)
              | simp at hx
              | norm_num

/-- Concrete evaluation of an incremental run over January 2024 with an
explicit end date: every oracle succeeds, one record is fetched, and the
emitted percents are `0, 10, 15, 20, 70, 60, 65, 65, 90, 100`. -/
theorem demoRun_eq :
    sync_namechange_data demoEnv (some 800000) (some 738886) (some 738916) false 5 =
      ⟨[some 0, some 10, some 15, some 20, some 70, some 60, some 65, some 65,
        some 90, some 100], some 738916, false, []⟩ := by
  have hinc : incLoop demoEnv 738886 738916 5 738886 = ([some 70], [sampleNC]) := by
    with_unfolding_all decide
  have hded : dedupNC [sampleNC] = [sampleNC] := by with_unfolding_all decide
  have hsave : saveIncremental demoEnv 1 = ([some 65, some 65], false) := by
    with_unfolding_all decide
  unfold sync_namechange_data
  rw [if_neg (by decide : ¬((!demoEnv.initOk) = true)),
    if_neg (by decide : ¬((!demoEnv.tokenValid) = true)),
    if_neg (by decide : ¬((false : Bool) = true))]
  simp only [Option.getD_some, Bool.false_eq_true, if_false]
  rw [hinc]
  dsimp only
  rw [hded,
    if_neg (by decide : ¬(([sampleNC] : List NCRec).isEmpty = true)),
    show ([sampleNC] : List NCRec).length = 1 from rfl, hsave]
  dsimp only
  rw [if_neg (by decide : ¬((false : Bool) = true)),
    if_pos (by decide : demoEnv.writeCheckpointOk = true),
    if_neg (by decide : ¬(([sampleNC] : List NCRec).isEmpty = true))]
  rfl

/-- Concrete evaluation of the same January run with no explicit end date
(`today` is 2024-01-31): the checkpoint is advanced to `today`. -/
theorem demoRun2_eq :
    sync_namechange_data demoEnv2 (some 738900) (some 738886) none false 5 =
      ⟨[some 0, some 10, some 15, some 20, some 70, some 60, some 65, some 65,
        some 90, some 100], some 738916, false, []⟩ := by
  have hinc : incLoop demoEnv2 738886 738916 5 738886 = ([some 70], [sampleNC]) := by
    with_unfolding_all decide
  have hded : dedupNC [sampleNC] = [sampleNC] := by with_unfolding_all decide
  have hsave : saveIncremental demoEnv2 1 = ([some 65, some 65], false) := by
    with_unfolding_all decide
  unfold sync_namechange_data
  rw [if_neg (by decide : ¬((!demoEnv2.initOk) = true)),
    if_neg (by decide : ¬((!demoEnv2.tokenValid) = true)),
    if_neg (by decide : ¬((false : Bool) = true))]
  simp only [Option.getD_some, Option.getD_none, Bool.false_eq_true, if_false]
  rw [show demoEnv2.today = 738916 from rfl, hinc]
  dsimp only
  rw [hded,
    if_neg (by decide : ¬(([sampleNC] : List NCRec).isEmpty = true)),
    show ([sampleNC] : List NCRec).length = 1 from rfl, hsave]
  dsimp only
  rw [if_neg (by decide : ¬((false : Bool) = true)),
    if_pos (by decide : demoEnv2.writeCheckpointOk = true),
    if_neg (by decide : ¬(([sampleNC] : List NCRec).isEmpty = true))]
  rfl

/-- Every run either leaves the persisted checkpoint untouched, or is a
non-raising incremental run that sets it to the effective end date
(`end_date` argument, or today when absent). -/
theorem sync_outcome (env : SyncEnv) (stored : Option Nat)
    (startArg endArg : Option Nat) (force : Bool) (fuel : Nat) :
    (sync_namechange_data env stored startArg endArg force fuel).checkpoint = stored ∨
      (force = false ∧
       (sync_namechange_data env stored startArg endArg force fuel).raised = false ∧
       (sync_namechange_data env stored startArg endArg force fuel).checkpoint =
         some (endArg.getD env.today)) := by
  unfold sync_namechange_data
  cases hinit : env.initOk with
  | false =>
    left
    rfl
  | true =>
    cases htok : env.tokenValid with
    | false =>
      left
      rfl
    | true =>
      cases force with
      | true =>
        cases hsetup : env.fullSetup with
        | error e =>
          left
          rfl
        | ok sl =>
          left
          rfl
      | false =>
        simp only [Bool.not_true, Bool.false_eq_true, if_false]
        set sD := startArg.getD (get_last_sync_date env.syncRead env.today) with hsD
        set eD := endArg.getD env.today with heD
        set rr := incLoop env sD eD fuel sD with hrr
        set comb := if rr.2.isEmpty then [] else dedupNC rr.2 with hcomb
        by_cases hce : comb.isEmpty = true
        · rw [if_pos hce]
          left
          rfl
        · rw [if_neg hce]
          set sv := saveIncremental env comb.length with hsv
          by_cases hraised : sv.2 = true
          · rw [if_pos hraised]
            left
            rfl
          · rw [if_neg hraised]
            by_cases hw : env.writeCheckpointOk = true
            · rw [if_pos hw]
              right
              exact ⟨trivial, rfl, rfl⟩
            · rw [if_neg hw]
              left
              rfl

/-- C4 (amended): a raising incremental run leaves the persisted
`last_sync_date` unchanged; a run either leaves it unchanged or (when it
completes the write path) sets it to the run's effective end date — the
explicit `end_date` argument, or today; hence with no explicit end date and
a stored date not in the future, the checkpoint never decreases.  A full
re-sync never touches the sync record at all (full mode returns before the
checkpoint write).  The original claim's unconditional "never regresses in
incremental mode" is refuted by the counterexample (explicit past
`end_date`). -/
theorem C4_checkpoint_behaviour (env : SyncEnv) (stored : Option Nat)
    (startArg endArg : Option Nat) (fuel : Nat) :
    ((sync_namechange_data env stored startArg endArg false fuel).raised = true →
      (sync_namechange_data env stored startArg endArg false fuel).checkpoint = stored) ∧
    ((sync_namechange_data env stored startArg endArg false fuel).checkpoint = stored ∨
      ((sync_namechange_data env stored startArg endArg false fuel).raised = false ∧
       (sync_namechange_data env stored startArg endArg false fuel).checkpoint =
         some (endArg.getD env.today))) ∧
    (endArg = none → ∀ d dNew, stored = some d → d ≤ env.today →
      (sync_namechange_data env stored startArg endArg false fuel).checkpoint =
        some dNew → d ≤ dNew) ∧
    (sync_namechange_data env stored startArg endArg true fuel).checkpoint = stored := by
  refine ⟨?_, ?_, ?_, ?_⟩
  · intro hraised
    rcases sync_outcome env stored startArg endArg false fuel with h | ⟨_, hr, _⟩
    · exact h
    · rw [hr] at hraised
      exact Bool.noConfusion hraised
  · rcases sync_outcome env stored startArg endArg false fuel with h | ⟨_, hr, hc⟩
    · exact Or.inl h
    · exact Or.inr ⟨hr, hc⟩
  · intro hend d dNew hst hdt hck
    rcases sync_outcome env stored startArg endArg false fuel with h | ⟨_, _, h⟩
    · rw [h, hst] at hck
      injection hck with hck
      omega
    · rw [h] at hck
      injection hck with hck
      subst hend
      simp only [Option.getD_none] at hck
      omega
  · rcases sync_outcome env stored startArg endArg true fuel with h | ⟨hf, _, _⟩
    · exact h
    · exact Bool.noConfusion hf

/-- Witness for C4: a run that raises at token validation leaves the
checkpoint at its prior value, and a successful run with no explicit end
date and stored date `738900 ≤ today = 738916` advances it monotonically. -/
theorem C4_checkpoint_behaviour_witness :
    (sync_namechange_data demoEnvBadToken (some 738900) none none false 5).checkpoint =
      some 738900 ∧
    (738900 : Nat) ≤ 738916 :=
  ⟨(C4_checkpoint_behaviour demoEnvBadToken (some 738900) none none 5).1 (by decide),
   by
    have h738916 : demoEnv2.today = 738916 := rfl
    have := (C4_checkpoint_behaviour demoEnv2 (some 738900) (some 738886) none 5).2.2.1
      rfl 738900 738916 rfl (by decide)
      (by rw [demoRun2_eq])
    exact this⟩

/-- C4 (counterexample): the claim says the checkpoint of an incremental
run never regresses (outside explicit full re-sync).  A successful
incremental run with an explicit `end_date` in the past — here
`end_date = 20240131` (ordinal 738916) with stored checkpoint 800000 —
rewrites `last_sync_date` to the past date: the checkpoint regresses. -/
theorem C4_checkpoint_regression_counterexample :
    (sync_namechange_data demoEnv (some 800000) (some 738886) (some 738916)
        false 5).raised = false ∧
    (sync_namechange_data demoEnv (some 800000) (some 738886) (some 738916)
        false 5).checkpoint = some 738916 ∧
    (738916 : Nat) < 800000 := by
  rw [demoRun_eq]
  exact ⟨rfl, rfl, by omega⟩

/-- Witness for C5 at a concrete emitted percent: the January run's fetch
phase reports 70, which is at most 100. -/
theorem C5_progress_percent_le_100_witness :
    some (70 : ℚ) ∈ (sync_namechange_data demoEnv (some 800000) (some 738886)
      (some 738916) false 5).trace ∧ (70 : ℚ) ≤ 100 :=
  ⟨by
    rw [demoRun_eq]
    exact List.mem_cons_of_mem _ (List.mem_cons_of_mem _ (List.mem_cons_of_mem _
      (List.mem_cons_of_mem _ (List.mem_cons_self _ _)))),
   C5_progress_percent_le_100 demoEnv (some 800000) (some 738886) (some 738916)
     false 5 70
     (by
       rw [demoRun_eq]
       exact List.mem_cons_of_mem _ (List.mem_cons_of_mem _ (List.mem_cons_of_mem _
         (List.mem_cons_of_mem _ (List.mem_cons_self _ _)))))⟩

/-- C5 (counterexample): the claim says `progress_percent` never decreases
within a run.  In the January run every oracle succeeds, yet the reported
sequence is `0, 10, 15, 20, 70, 60, 65, 65, 90, 100`: the fetch phase ends
at 70 and the orchestrator then reports the fixed 60 (and the saver 65) —
the sequence decreases from 70 to 60. -/
theorem C5_progress_decreases_counterexample :
    ((sync_namechange_data demoEnv (some 800000) (some 738886) (some 738916)
        false 5).trace.filterMap id =
      [0, 10, 15, 20, 70, 60, 65, 65, 90, 100]) ∧
    ((sync_namechange_data demoEnv (some 800000) (some 738886) (some 738916)
        false 5).trace.filterMap id).get? 4 = some 70 ∧
    ((sync_namechange_data demoEnv (some 800000) (some 738886) (some 738916)
        false 5).trace.filterMap id).get? 5 = some 60 ∧
    (60 : ℚ) < 70 := by
  rw [demoRun_eq]
  refine ⟨rfl, rfl, rfl, by norm_num⟩

end PandaFactor
